import Mathlib

set_option maxHeartbeats 1600000
set_option maxRecDepth 8000
set_option linter.unusedVariables false

/-!
Verification of the counting-components library (`src/lib.rs`): a shallow
embedding of its data model and algorithms, with proofs of the specified
properties.  `Option`-valued functions model Rust panics (`none` = panic:
index out of bounds, arithmetic underflow, or division by zero), and
`Except` models Rust's `Result`.  Unbounded `while` loops are embedded with
an explicit fuel parameter; the theorems prove the fuel used by the wrappers
is always sufficient on valid inputs.
-/

deriving instance DecidableEq for Except

/-- Error enum `PermutationError` from `src/lib.rs`. -/
inductive PermutationError where
  | InvalidPermutation : PermutationError
  | InvalidFlipset : PermutationError
  | InvalidStrandType : PermutationError
deriving DecidableEq

/-- The `SignedPermutation` struct: the stored permutation vector and flip set. -/
structure SignedPermutation where
  permutation : List Nat
  flip_set : Finset Nat
deriving DecidableEq

/-- The `Strand` enum. -/
inductive Strand where
  | Transverse : Nat → Strand
  | PermutationDirection : Nat → Nat → Strand
deriving DecidableEq

/-- Sort key giving strands exactly the order of Rust's derived `Ord`:
`Transverse` before `PermutationDirection`, lexicographic on the indices. -/
def Strand.toKey : Strand → Nat ×ₗ (Nat ×ₗ Nat)
  | .Transverse i => toLex (0, toLex (i, 0))
  | .PermutationDirection j k => toLex (1, toLex (j, k))

instance : LinearOrder Strand :=
  LinearOrder.lift' Strand.toKey (by
    intro a b h
    cases a <;> cases b <;> simp [Strand.toKey] at h <;> simp [h])

/-- Checked subtraction: Rust `usize` subtraction panics on underflow. -/
def csub (a b : Nat) : Option Nat := if b ≤ a then some (a - b) else none

/-- Checked division: Rust `usize` division panics when the divisor is zero. -/
def cdiv (a b : Nat) : Option Nat := if b = 0 then none else some (a / b)

/-- Checked remainder: panics when the divisor is zero. -/
def cmod (a b : Nat) : Option Nat := if b = 0 then none else some (a % b)

/-- Embedding of `get_next_major_strand` from `src/lib.rs`.  Returns the next strand and the
flip flag; `none` models a Rust panic on out-of-domain inputs. -/
def get_next_major_strand (perm : SignedPermutation) (m n : Nat) :
    Strand → Option (Strand × Nat)
  | .PermutationDirection j0 k0 => do
      let fk ←
        if j0 ∈ perm.flip_set then do
          let t ← csub m k0
          let k1 ← csub t 1
          pure (k1, 1)
        else pure (k0, 0)
      let j1 ← perm.permutation[j0]?
      let absolute := m * j1 + fk.1
      if absolute + n < perm.permutation.length * m then do
        let pi ← cdiv (absolute + n) m
        let ci ← cmod (absolute + n) m
        pure (Strand.PermutationDirection pi ci, fk.2)
      else do
        let t ← csub (perm.permutation.length * m) absolute
        let ti ← csub t 1
        pure (Strand.Transverse ti, fk.2)
  | .Transverse i =>
      if i + perm.permutation.length * m < n then
        pure (Strand.Transverse (i + perm.permutation.length * m), 0)
      else do
        let t ← csub n i
        let absolute ← csub t 1
        let pi ← cdiv absolute m
        let ci ← cmod absolute m
        pure (Strand.PermutationDirection pi ci, 0)

/-- The §4.1 transition rule exactly as the specification words it (a total
function; to be compared with `get_next_major_strand` on the strand space). -/
def specTransition (perm : SignedPermutation) (m n : Nat) : Strand → Strand × Nat
  | .PermutationDirection j k =>
      let k1 := if j ∈ perm.flip_set then m - k - 1 else k
      let f := if j ∈ perm.flip_set then 1 else 0
      let j1 := perm.permutation.getD j 0
      let a := m * j1 + k1
      if a + n < perm.permutation.length * m then
        (.PermutationDirection ((a + n) / m) ((a + n) % m), f)
      else
        (.Transverse (perm.permutation.length * m - a - 1), f)
  | .Transverse i =>
      if i + perm.permutation.length * m < n then
        (.Transverse (i + perm.permutation.length * m), 0)
      else
        (.PermutationDirection ((n - i - 1) / m) ((n - i - 1) % m), 0)

/-- Successor strand: the pure view of `get_next_major_strand` on its domain. -/
def nextS (perm : SignedPermutation) (m n : Nat) (s : Strand) : Strand :=
  match get_next_major_strand perm m n s with
  | some r => r.1
  | none => s

/-- Flip flag of the transition step leaving `s`. -/
def flagS (perm : SignedPermutation) (m n : Nat) (s : Strand) : Nat :=
  match get_next_major_strand perm m n s with
  | some r => r.2
  | none => 0

/-- Inverse direction of the transition rule (used to prove bijectivity):
undoes the permutation application and the flip adjustment from the absolute
position inside the permutation-copy region. -/
def prevOfAbsolute (perm : SignedPermutation) (m : Nat) (a : Nat) : Strand :=
  let j0 := perm.permutation.indexOf (a / m)
  if j0 ∈ perm.flip_set then .PermutationDirection j0 (m - a % m - 1)
  else .PermutationDirection j0 (a % m)

/-- Predecessor strand under the transition rule. -/
def prevS (perm : SignedPermutation) (m n : Nat) : Strand → Strand
  | .Transverse idx =>
      if perm.permutation.length * m ≤ idx then
        .Transverse (idx - perm.permutation.length * m)
      else prevOfAbsolute perm m (perm.permutation.length * m - idx - 1)
  | .PermutationDirection j k =>
      if n ≤ m * j + k then prevOfAbsolute perm m (m * j + k - n)
      else .Transverse (n - (m * j + k) - 1)

/-- All strands for parameters `(L, m, n)`: the working set built at the start
of `count_components_with_orientability`. -/
def strandSpace (L m n : Nat) : Finset Strand :=
  (Finset.range n).image Strand.Transverse ∪
    ((Finset.range L ×ˢ Finset.range m).image fun p =>
      Strand.PermutationDirection p.1 p.2)

/-- Data-model invariant (§3): the stored vector is a bijection on
`{0,…,L−1}` and the flip set is a subset of `{0,…,L−1}`. -/
def SignedPermutation.Valid (perm : SignedPermutation) : Prop :=
  (∀ v ∈ perm.permutation, v < perm.permutation.length) ∧
    perm.permutation.Nodup ∧ ∀ f ∈ perm.flip_set, f < perm.permutation.length

instance (perm : SignedPermutation) : Decidable perm.Valid := by
  unfold SignedPermutation.Valid; infer_instance

/-- Loop of `has_one_component`: walks the orbit of `Transverse 0`, counting
steps and accumulating flip parity, until `Transverse 0` recurs. -/
def has_one_component_loop (perm : SignedPermutation) (m n : Nat) :
    Nat → Strand → Nat → Nat → Option (Nat × Nat)
  | 0, _, _, _ => none
  | fuel + 1, cur, orient, len =>
      if cur = Strand.Transverse 0 then some (len, orient)
      else
        match get_next_major_strand perm m n cur with
        | none => none
        | some r =>
            has_one_component_loop perm m n fuel r.1 ((orient + r.2) % 2) (len + 1)

/-- Embedding of `has_one_component` from `src/lib.rs`. -/
def has_one_component (perm : SignedPermutation) (m n : Nat) : Option (Bool × Nat) :=
  let expected := m * perm.permutation.length + n
  match get_next_major_strand perm m n (Strand.Transverse 0) with
  | none => none
  | some r =>
      match has_one_component_loop perm m n expected r.1 r.2 1 with
      | none => none
      | some p => some (expected == p.1, p.2)

/-- Inner walk of `count_components_with_orientability`: follows the orbit of
`first`, erasing each visited strand from the working set and accumulating the
flip flags. -/
def walk_loop (perm : SignedPermutation) (m n : Nat) (first : Strand) :
    Nat → Strand → Finset Strand → Nat → Option (Finset Strand × Nat)
  | 0, _, _, _ => none
  | fuel + 1, cur, strands, orient =>
      if cur = first then some (strands, orient)
      else
        match get_next_major_strand perm m n cur with
        | none => none
        | some r => walk_loop perm m n first fuel r.1 (strands.erase cur) (orient + r.2)

/-- Outer loop of `count_components_with_orientability`: repeatedly pops the
minimum remaining strand and walks its orbit. -/
def count_loop (perm : SignedPermutation) (m n : Nat) :
    Nat → Finset Strand → Nat → Nat → Option (Nat × Nat)
  | 0, _, _, _ => none
  | fuel + 1, strands, two, one =>
      if h : strands.Nonempty then
        match get_next_major_strand perm m n (strands.min' h) with
        | none => none
        | some r =>
            match walk_loop perm m n (strands.min' h) (m * perm.permutation.length + n)
                r.1 (strands.erase (strands.min' h)) r.2 with
            | none => none
            | some q =>
                if q.2 % 2 = 0 then count_loop perm m n fuel q.1 (two + 1) one
                else count_loop perm m n fuel q.1 two (one + 1)
      else some (two, one)

/-- Embedding of `count_components_with_orientability` from `src/lib.rs`. -/
def count_components_with_orientability (perm : SignedPermutation) (m n : Nat) :
    Option (Nat × Nat) :=
  count_loop perm m n (m * perm.permutation.length + n + 1)
    (strandSpace perm.permutation.length m n) 0 0

/-- Generalized outer loop where the next origin is chosen by an arbitrary
selection function `pick` instead of the minimum (§4.3 determinism note). -/
def count_loop_pick (perm : SignedPermutation) (m n : Nat)
    (pick : Finset Strand → Strand) :
    Nat → Finset Strand → Nat → Nat → Option (Nat × Nat)
  | 0, _, _, _ => none
  | fuel + 1, strands, two, one =>
      if strands.Nonempty then
        match get_next_major_strand perm m n (pick strands) with
        | none => none
        | some r =>
            match walk_loop perm m n (pick strands) (m * perm.permutation.length + n)
                r.1 (strands.erase (pick strands)) r.2 with
            | none => none
            | some q =>
                if q.2 % 2 = 0 then count_loop_pick perm m n pick fuel q.1 (two + 1) one
                else count_loop_pick perm m n pick fuel q.1 two (one + 1)
      else some (two, one)

/-- The minimum-element origin selection used by `count_loop`. -/
def minPick (S : Finset Strand) : Strand :=
  if h : S.Nonempty then S.min' h else Strand.Transverse 0

/-- One task of the enumerator: the `((m, n), counts)` entry computed for the
parameters `(k, n)` with `m = k - n`. -/
def enum_task (perm : SignedPermutation) (k n : Nat) :
    Option ((Nat × Nat) × (Nat × Nat)) :=
  match count_components_with_orientability perm (k - n) n with
  | none => none
  | some r => some ((k - n, n), r)

/-- Sequential collection of the enumerator tasks. -/
def enum_loop (perm : SignedPermutation) :
    List (Nat × Nat) → Option (List ((Nat × Nat) × (Nat × Nat)))
  | [] => some []
  | kn :: rest =>
      match enum_task perm kn.1 kn.2 with
      | none => none
      | some e =>
          match enum_loop perm rest with
          | none => none
          | some l => some (e :: l)

/-- The `(k, n)` parameter pairs generated by `count_components_upto_complexity`:
`k` in `[2, complexity)`, `n` in `[1, k)` with `gcd(k, n) = 1`. -/
def enum_pairs (complexity : Nat) : List (Nat × Nat) :=
  (List.range' 2 (complexity - 2)).flatMap fun k =>
    ((List.range' 1 (k - 1)).filter fun n => Nat.gcd k n = 1).map fun n => (k, n)

/-- Embedding of `count_components_upto_complexity` from `src/lib.rs` (sequential semantics
of the rayon parallel map; `none` models a panicking task). -/
def count_components_upto_complexity (perm : SignedPermutation) (complexity : Nat) :
    Option (List ((Nat × Nat) × (Nat × Nat))) :=
  enum_loop perm (enum_pairs complexity)

/-- Loop of `SignedPermutation::new` over the enumerated input sequence:
writes `index` into slot `value` of the accumulator, rejecting out-of-range
and duplicate values.  Note it stores the inverse of the input map. -/
def newLoop (length : Nat) : List (Nat × Nat) → List Nat →
    Except PermutationError (List Nat)
  | [], acc => .ok acc
  | q :: rest, acc =>
      if length ≤ q.2 then .error .InvalidPermutation
      else if acc.getD q.2 0 ≠ length then .error .InvalidPermutation
      else newLoop length rest (acc.set q.2 q.1)

/-- Loop of `SignedPermutation::new` over the flip indices. -/
def flipLoop (length : Nat) : List Nat → Finset Nat →
    Except PermutationError (Finset Nat)
  | [], acc => .ok acc
  | v :: rest, acc =>
      if length ≤ v then .error .InvalidFlipset
      else flipLoop length rest (insert v acc)

/-- Embedding of `SignedPermutation::new` from `src/lib.rs`. -/
def SignedPermutation.new (permutation flips : List Nat) :
    Except PermutationError SignedPermutation :=
  match newLoop permutation.length permutation.enum
      (List.replicate permutation.length permutation.length) with
  | .error e => .error e
  | .ok pv =>
      match flipLoop permutation.length flips ∅ with
      | .error e => .error e
      | .ok fs => .ok ⟨pv, fs⟩

/-- Embedding of `SignedPermutation::__call__` from `src/lib.rs`. -/
def SignedPermutation.call (perm : SignedPermutation) (input : Nat) :
    Except PermutationError (Nat × Nat) :=
  if perm.permutation.length ≤ input then .error .InvalidPermutation
  else if input ∈ perm.flip_set then .ok (perm.permutation.getD input 0, 1)
  else .ok (perm.permutation.getD input 0, 0)

/-- Orbit of `s` under the transition rule, as a finite set (the strand-space
size `m·L + n` always bounds the period). -/
def orbitF (perm : SignedPermutation) (m n : Nat) (s : Strand) : Finset Strand :=
  (Finset.range (m * perm.permutation.length + n)).image
    fun k => (nextS perm m n)^[k] s

/-- Accumulated flip parity of the orbit of `s`. -/
def orbitParity (perm : SignedPermutation) (m n : Nat) (s : Strand) : Nat :=
  (∑ x ∈ orbitF perm m n s, flagS perm m n x) % 2

/-- Number of orbits inside `S` with even parity (two-sided components). -/
def evenOrbits (perm : SignedPermutation) (m n : Nat) (S : Finset Strand) : Nat :=
  ((S.filter fun s => orbitParity perm m n s = 0).image (orbitF perm m n)).card

/-- Number of orbits inside `S` with odd parity (one-sided components). -/
def oddOrbits (perm : SignedPermutation) (m n : Nat) (S : Finset Strand) : Nat :=
  ((S.filter fun s => ¬ orbitParity perm m n s = 0).image (orbitF perm m n)).card

/-! ## Strand space basics -/

theorem transverse_injective : Function.Injective Strand.Transverse := by
  intro a b h
  cases h; rfl

theorem pd_injective :
    Function.Injective fun p : Nat × Nat => Strand.PermutationDirection p.1 p.2 := by
  intro a b h
  cases a; cases b; simp_all

theorem mem_strandSpace_transverse {L m n i : Nat} :
    Strand.Transverse i ∈ strandSpace L m n ↔ i < n := by
  simp [strandSpace]

theorem mem_strandSpace_pd {L m n j k : Nat} :
    Strand.PermutationDirection j k ∈ strandSpace L m n ↔ j < L ∧ k < m := by
  simp [strandSpace]

theorem card_strandSpace (L m n : Nat) : (strandSpace L m n).card = m * L + n := by
  have hdisj : Disjoint ((Finset.range n).image Strand.Transverse)
      ((Finset.range L ×ˢ Finset.range m).image fun p =>
        Strand.PermutationDirection p.1 p.2) := by
    simp [Finset.disjoint_left]
  rw [strandSpace, Finset.card_union_of_disjoint hdisj,
    Finset.card_image_of_injective _ transverse_injective,
    Finset.card_image_of_injective _ pd_injective,
    Finset.card_range, Finset.card_product, Finset.card_range, Finset.card_range]
  ring

theorem step_lemma (perm : SignedPermutation) (hv : perm.Valid) (m n : Nat)
    (hm : 0 < m) (hn : 0 < n) (s : Strand)
    (hs : s ∈ strandSpace perm.permutation.length m n) :
    get_next_major_strand perm m n s = some (specTransition perm m n s) ∧
    (specTransition perm m n s).1 ∈ strandSpace perm.permutation.length m n ∧
    (specTransition perm m n s).2 ≤ 1 := by
  cases s with
  | Transverse i =>
    rw [mem_strandSpace_transverse] at hs
    by_cases hcase : i + perm.permutation.length * m < n
    · simp [get_next_major_strand, specTransition, hcase, mem_strandSpace_transverse]
    · have h1 : i ≤ n := le_of_lt hs
      have h2 : 1 ≤ n - i := by omega
      have hLm : 0 < perm.permutation.length * m := by omega
      have h3 : n - i - 1 < perm.permutation.length * m := by omega
      have hmne : ¬ (m = 0) := by omega
      refine ⟨?_, ?_, ?_⟩
      · simp [get_next_major_strand, specTransition, hcase, csub, cdiv, cmod, h1, h2, hmne]
      · simp only [specTransition, if_neg hcase, mem_strandSpace_pd]
        constructor
        · rw [Nat.div_lt_iff_lt_mul hm]
          calc n - i - 1 < perm.permutation.length * m := h3
            _ = perm.permutation.length * m := rfl
          
        · exact Nat.mod_lt _ hm
      · simp [specTransition, if_neg hcase]
  | PermutationDirection j k =>
    rw [mem_strandSpace_pd] at hs
    obtain ⟨hj, hk⟩ := hs
    have hget : perm.permutation[j]? = some perm.permutation[j] :=
      (List.getElem?_eq_some_getElem_iff _ _ hj).mpr trivial
    have hgetD : perm.permutation.getD j 0 = perm.permutation[j] :=
      List.getD_eq_getElem _ _ hj
    have hj1 : perm.permutation[j] < perm.permutation.length :=
      hv.1 _ (List.getElem_mem hj)
    have hmne : ¬ (m = 0) := by omega
    by_cases hflip : j ∈ perm.flip_set
    · have hkm : k ≤ m := le_of_lt hk
      have hk1 : 1 ≤ m - k := by omega
      have hk1m : m - k - 1 < m := by omega
      have ha : m * perm.permutation[j] + (m - k - 1) < perm.permutation.length * m := by
        have : m * perm.permutation[j] + (m - k - 1) < m * (perm.permutation[j] + 1) := by
          rw [Nat.mul_succ]; omega
        calc m * perm.permutation[j] + (m - k - 1) < m * (perm.permutation[j] + 1) := this
          _ ≤ m * perm.permutation.length := Nat.mul_le_mul_left m hj1
          _ = perm.permutation.length * m := Nat.mul_comm _ _
      by_cases habs : m * perm.permutation[j] + (m - k - 1) + n <
          perm.permutation.length * m
      · refine ⟨?_, ?_, ?_⟩
        · simp [get_next_major_strand, specTransition, hflip, csub, cdiv, cmod,
            hkm, hk1, hmne, hget, hgetD, habs]
        · simp only [specTransition, if_pos hflip, hgetD, if_pos habs,
            mem_strandSpace_pd]
          exact ⟨(Nat.div_lt_iff_lt_mul hm).mpr habs, Nat.mod_lt _ hm⟩
        · simp [specTransition, hflip, hget, hgetD, habs]
      · refine ⟨?_, ?_, ?_⟩
        · have hle : m * perm.permutation[j] + (m - k - 1) ≤
              perm.permutation.length * m := le_of_lt ha
          have h1 : 1 ≤ perm.permutation.length * m -
              (m * perm.permutation[j] + (m - k - 1)) := by omega
          simp [get_next_major_strand, specTransition, hflip, csub, cdiv, cmod,
            hkm, hk1, hmne, hget, hgetD, habs, hle, h1]
        · simp only [specTransition, if_pos hflip, hgetD, if_neg habs,
            mem_strandSpace_transverse]
          omega
        · simp [specTransition, hflip, hget, hgetD, habs]
    · have ha : m * perm.permutation[j] + k < perm.permutation.length * m := by
        have : m * perm.permutation[j] + k < m * (perm.permutation[j] + 1) := by
          rw [Nat.mul_succ]; omega
        calc m * perm.permutation[j] + k < m * (perm.permutation[j] + 1) := this
          _ ≤ m * perm.permutation.length := Nat.mul_le_mul_left m hj1
          _ = perm.permutation.length * m := Nat.mul_comm _ _
      by_cases habs : m * perm.permutation[j] + k + n < perm.permutation.length * m
      · refine ⟨?_, ?_, ?_⟩
        · simp [get_next_major_strand, specTransition, hflip, csub, cdiv, cmod,
            hmne, hget, hgetD, habs]
        · simp only [specTransition, if_neg hflip, hgetD, if_pos habs,
            mem_strandSpace_pd]
          exact ⟨(Nat.div_lt_iff_lt_mul hm).mpr habs, Nat.mod_lt _ hm⟩
        · simp [specTransition, hflip, hget, hgetD, habs]
      · refine ⟨?_, ?_, ?_⟩
        · have hle : m * perm.permutation[j] + k ≤ perm.permutation.length * m :=
            le_of_lt ha
          have h1 : 1 ≤ perm.permutation.length * m -
              (m * perm.permutation[j] + k) := by omega
          simp [get_next_major_strand, specTransition, hflip, csub, cdiv, cmod,
            hmne, hget, hgetD, habs, hle, h1]
        · simp only [specTransition, if_neg hflip, hgetD, if_neg habs,
            mem_strandSpace_transverse]
          omega
        · simp [specTransition, hflip, hget, hgetD, habs]

theorem nextS_eq (perm : SignedPermutation) (hv : perm.Valid) (m n : Nat)
    (hm : 0 < m) (hn : 0 < n) {s : Strand}
    (hs : s ∈ strandSpace perm.permutation.length m n) :
    nextS perm m n s = (specTransition perm m n s).1 := by
  rw [nextS, (step_lemma perm hv m n hm hn s hs).1]

theorem flagS_eq (perm : SignedPermutation) (hv : perm.Valid) (m n : Nat)
    (hm : 0 < m) (hn : 0 < n) {s : Strand}
    (hs : s ∈ strandSpace perm.permutation.length m n) :
    flagS perm m n s = (specTransition perm m n s).2 := by
  rw [flagS, (step_lemma perm hv m n hm hn s hs).1]

theorem getNext_eq_pair (perm : SignedPermutation) (hv : perm.Valid) (m n : Nat)
    (hm : 0 < m) (hn : 0 < n) {s : Strand}
    (hs : s ∈ strandSpace perm.permutation.length m n) :
    get_next_major_strand perm m n s = some (nextS perm m n s, flagS perm m n s) := by
  rw [nextS_eq perm hv m n hm hn hs, flagS_eq perm hv m n hm hn hs,
    (step_lemma perm hv m n hm hn s hs).1]

theorem nextS_mem (perm : SignedPermutation) (hv : perm.Valid) (m n : Nat)
    (hm : 0 < m) (hn : 0 < n) {s : Strand}
    (hs : s ∈ strandSpace perm.permutation.length m n) :
    nextS perm m n s ∈ strandSpace perm.permutation.length m n := by
  rw [nextS_eq perm hv m n hm hn hs]
  exact (step_lemma perm hv m n hm hn s hs).2.1

theorem flagS_le (perm : SignedPermutation) (hv : perm.Valid) (m n : Nat)
    (hm : 0 < m) (hn : 0 < n) {s : Strand}
    (hs : s ∈ strandSpace perm.permutation.length m n) :
    flagS perm m n s ≤ 1 := by
  rw [flagS_eq perm hv m n hm hn hs]
  exact (step_lemma perm hv m n hm hn s hs).2.2

theorem indexOf_getElem {l : List Nat} (h : l.Nodup) {j : Nat} (hj : j < l.length) :
    l.indexOf l[j] = j := by
  simpa using List.get_indexOf h ⟨j, hj⟩

theorem prevOfAbsolute_spec (perm : SignedPermutation) (hv : perm.Valid) (m : Nat)
    (hm : 0 < m) {j k : Nat} (hj : j < perm.permutation.length) (hk : k < m) :
    prevOfAbsolute perm m (m * perm.permutation[j] +
        (if j ∈ perm.flip_set then m - k - 1 else k)) =
      Strand.PermutationDirection j k := by
  set k1 := if j ∈ perm.flip_set then m - k - 1 else k with hk1def
  have hk1 : k1 < m := by rw [hk1def]; split <;> omega
  have hdiv : (m * perm.permutation[j] + k1) / m = perm.permutation[j] := by
    rw [Nat.mul_add_div hm, Nat.div_eq_of_lt hk1, Nat.add_zero]
  have hmod : (m * perm.permutation[j] + k1) % m = k1 := by
    rw [Nat.mul_add_mod, Nat.mod_eq_of_lt hk1]
  have hidx : perm.permutation.indexOf perm.permutation[j] = j :=
    indexOf_getElem hv.2.1 hj
  rw [prevOfAbsolute]
  simp only [hdiv, hmod, hidx]
  by_cases hflip : j ∈ perm.flip_set
  · have hkk : k1 = m - k - 1 := by rw [hk1def, if_pos hflip]
    have harith : m - k1 - 1 = k := by omega
    rw [if_pos hflip, harith]
  · have hkk : k1 = k := by rw [hk1def, if_neg hflip]
    rw [if_neg hflip, hkk]

theorem prevS_nextS (perm : SignedPermutation) (hv : perm.Valid) (m n : Nat)
    (hm : 0 < m) (hn : 0 < n) {s : Strand}
    (hs : s ∈ strandSpace perm.permutation.length m n) :
    prevS perm m n (nextS perm m n s) = s := by
  rw [nextS_eq perm hv m n hm hn hs]
  cases s with
  | Transverse i =>
    rw [mem_strandSpace_transverse] at hs
    by_cases hcase : i + perm.permutation.length * m < n
    · simp only [specTransition, if_pos hcase]
      rw [prevS, if_pos (Nat.le_add_left _ _)]
      simp
    · simp only [specTransition, if_neg hcase]
      rw [prevS]
      have hb : m * ((n - i - 1) / m) + (n - i - 1) % m = n - i - 1 :=
        Nat.div_add_mod _ m
      rw [hb, if_neg (by omega)]
      have : n - (n - i - 1) - 1 = i := by omega
      rw [this]
  | PermutationDirection j k =>
    rw [mem_strandSpace_pd] at hs
    obtain ⟨hj, hk⟩ := hs
    have hgetD : perm.permutation.getD j 0 = perm.permutation[j] :=
      List.getD_eq_getElem _ _ hj
    have hj1 : perm.permutation[j] < perm.permutation.length :=
      hv.1 _ (List.getElem_mem hj)
    have hLm : 0 < perm.permutation.length * m :=
      Nat.mul_pos (Nat.lt_of_le_of_lt (Nat.zero_le j) hj) hm
    have hspec := prevOfAbsolute_spec perm hv m hm hj hk
    by_cases hflip : j ∈ perm.flip_set
    · rw [if_pos hflip] at hspec
      have ha : m * perm.permutation[j] + (m - k - 1) <
          perm.permutation.length * m := by
        have h1 : m * perm.permutation[j] + (m - k - 1) <
            m * (perm.permutation[j] + 1) := by
          rw [Nat.mul_succ]; omega
        calc m * perm.permutation[j] + (m - k - 1) <
            m * (perm.permutation[j] + 1) := h1
          _ ≤ m * perm.permutation.length := Nat.mul_le_mul_left m hj1
          _ = perm.permutation.length * m := Nat.mul_comm _ _
      simp only [specTransition, if_pos hflip, hgetD]
      by_cases habs : m * perm.permutation[j] + (m - k - 1) + n <
          perm.permutation.length * m
      · rw [if_pos habs]
        rw [prevS]
        have hb : m * ((m * perm.permutation[j] + (m - k - 1) + n) / m) +
            (m * perm.permutation[j] + (m - k - 1) + n) % m =
            m * perm.permutation[j] + (m - k - 1) + n := Nat.div_add_mod _ m
        rw [hb, if_pos (Nat.le_add_left _ _), Nat.add_sub_cancel]
        exact hspec
      · rw [if_neg habs]
        rw [prevS]
        have hidx : perm.permutation.length * m -
            (m * perm.permutation[j] + (m - k - 1)) - 1 <
            perm.permutation.length * m := by omega
        rw [if_neg (by omega)]
        have : perm.permutation.length * m -
            (perm.permutation.length * m -
              (m * perm.permutation[j] + (m - k - 1)) - 1) - 1 =
            m * perm.permutation[j] + (m - k - 1) := by omega
        rw [this]
        exact hspec
    · rw [if_neg hflip] at hspec
      have ha : m * perm.permutation[j] + k < perm.permutation.length * m := by
        have h1 : m * perm.permutation[j] + k < m * (perm.permutation[j] + 1) := by
          rw [Nat.mul_succ]; omega
        calc m * perm.permutation[j] + k < m * (perm.permutation[j] + 1) := h1
          _ ≤ m * perm.permutation.length := Nat.mul_le_mul_left m hj1
          _ = perm.permutation.length * m := Nat.mul_comm _ _
      simp only [specTransition, if_neg hflip, hgetD]
      by_cases habs : m * perm.permutation[j] + k + n <
          perm.permutation.length * m
      · rw [if_pos habs]
        rw [prevS]
        have hb : m * ((m * perm.permutation[j] + k + n) / m) +
            (m * perm.permutation[j] + k + n) % m =
            m * perm.permutation[j] + k + n := Nat.div_add_mod _ m
        rw [hb, if_pos (Nat.le_add_left _ _), Nat.add_sub_cancel]
        exact hspec
      · rw [if_neg habs]
        rw [prevS]
        rw [if_neg (by omega)]
        have : perm.permutation.length * m -
            (perm.permutation.length * m - (m * perm.permutation[j] + k) - 1) - 1 =
            m * perm.permutation[j] + k := by omega
        rw [this]
        exact hspec

theorem nextS_injOn (perm : SignedPermutation) (hv : perm.Valid) (m n : Nat)
    (hm : 0 < m) (hn : 0 < n) {s1 s2 : Strand}
    (h1 : s1 ∈ strandSpace perm.permutation.length m n)
    (h2 : s2 ∈ strandSpace perm.permutation.length m n)
    (heq : nextS perm m n s1 = nextS perm m n s2) : s1 = s2 := by
  calc s1 = prevS perm m n (nextS perm m n s1) :=
        (prevS_nextS perm hv m n hm hn h1).symm
    _ = prevS perm m n (nextS perm m n s2) := by rw [heq]
    _ = s2 := prevS_nextS perm hv m n hm hn h2

theorem iter_mem (perm : SignedPermutation) (hv : perm.Valid) (m n : Nat)
    (hm : 0 < m) (hn : 0 < n) {s : Strand}
    (hs : s ∈ strandSpace perm.permutation.length m n) (k : Nat) :
    (nextS perm m n)^[k] s ∈ strandSpace perm.permutation.length m n := by
  induction k with
  | zero => exact hs
  | succ k ih =>
      rw [Function.iterate_succ_apply']
      exact nextS_mem perm hv m n hm hn ih

theorem iter_cancel (perm : SignedPermutation) (hv : perm.Valid) (m n : Nat)
    (hm : 0 < m) (hn : 0 < n) :
    ∀ (a : Nat) {x y : Strand}, x ∈ strandSpace perm.permutation.length m n →
      y ∈ strandSpace perm.permutation.length m n →
      (nextS perm m n)^[a] x = (nextS perm m n)^[a] y → x = y := by
  intro a
  induction a with
  | zero => intro x y _ _ h; simpa using h
  | succ a ih =>
      intro x y hx hy h
      rw [Function.iterate_succ_apply, Function.iterate_succ_apply] at h
      exact nextS_injOn perm hv m n hm hn hx hy
        (ih (nextS_mem perm hv m n hm hn hx) (nextS_mem perm hv m n hm hn hy) h)

theorem iter_eq_shift (perm : SignedPermutation) (hv : perm.Valid) (m n : Nat)
    (hm : 0 < m) (hn : 0 < n) {s : Strand}
    (hs : s ∈ strandSpace perm.permutation.length m n) {a b : Nat} (hab : a < b)
    (heq : (nextS perm m n)^[a] s = (nextS perm m n)^[b] s) :
    (nextS perm m n)^[b - a] s = s := by
  have h2 : (nextS perm m n)^[a] ((nextS perm m n)^[b - a] s) =
      (nextS perm m n)^[a] s := by
    rw [← Function.iterate_add_apply, Nat.add_sub_cancel' (le_of_lt hab)]
    exact heq.symm
  exact iter_cancel perm hv m n hm hn a (iter_mem perm hv m n hm hn hs (b - a)) hs h2

theorem exists_min_period (perm : SignedPermutation) (hv : perm.Valid) (m n : Nat)
    (hm : 0 < m) (hn : 0 < n) {s : Strand}
    (hs : s ∈ strandSpace perm.permutation.length m n) :
    ∃ d, 0 < d ∧ d ≤ m * perm.permutation.length + n ∧
      (nextS perm m n)^[d] s = s ∧
      ∀ e, 0 < e → e < d → (nextS perm m n)^[e] s ≠ s := by
  have hcard : (strandSpace perm.permutation.length m n).card <
      (Finset.range (m * perm.permutation.length + n + 1)).card := by
    rw [card_strandSpace, Finset.card_range]; omega
  obtain ⟨a, ha, b, hb, hab, heq⟩ :=
    Finset.exists_ne_map_eq_of_card_lt_of_maps_to hcard
      (fun k _ => iter_mem perm hv m n hm hn hs k)
  rw [Finset.mem_range] at ha hb
  have hper : ∃ d, (0 < d ∧ (nextS perm m n)^[d] s = s) := by
    rcases Nat.lt_or_ge a b with h | h
    · exact ⟨b - a, by omega, iter_eq_shift perm hv m n hm hn hs h heq⟩
    · have h' : b < a := by omega
      exact ⟨a - b, by omega, iter_eq_shift perm hv m n hm hn hs h' heq.symm⟩
  refine ⟨Nat.find hper, (Nat.find_spec hper).1, ?_, (Nat.find_spec hper).2, ?_⟩
  · rcases Nat.lt_or_ge a b with h | h
    · exact le_trans (Nat.find_min' hper ⟨by omega,
        iter_eq_shift perm hv m n hm hn hs h heq⟩) (by omega)
    · have h' : b < a := by omega
      exact le_trans (Nat.find_min' hper ⟨by omega,
        iter_eq_shift perm hv m n hm hn hs h' heq.symm⟩) (by omega)
  · intro e he hlt hcon
    exact Nat.find_min hper hlt ⟨he, hcon⟩

theorem iter_mod (perm : SignedPermutation) (m n : Nat) {s : Strand} {d : Nat}
    (hd : 0 < d) (hfix : (nextS perm m n)^[d] s = s) (a : Nat) :
    (nextS perm m n)^[a] s = (nextS perm m n)^[a % d] s := by
  conv_lhs => rw [← Nat.mod_add_div a d]
  rw [Function.iterate_add_apply, Function.iterate_mul,
    Function.iterate_fixed hfix]

theorem orbitF_eq (perm : SignedPermutation) (m n : Nat) {s : Strand} {d : Nat}
    (hd : 0 < d) (hdN : d ≤ m * perm.permutation.length + n)
    (hfix : (nextS perm m n)^[d] s = s) :
    orbitF perm m n s = (Finset.range d).image fun k => (nextS perm m n)^[k] s := by
  apply Finset.Subset.antisymm
  · intro x hx
    rw [orbitF, Finset.mem_image] at hx
    obtain ⟨k, hk, rfl⟩ := hx
    rw [Finset.mem_image]
    exact ⟨k % d, Finset.mem_range.mpr (Nat.mod_lt _ hd),
      (iter_mod perm m n hd hfix k).symm⟩
  · apply Finset.image_subset_image
    intro k hk
    rw [Finset.mem_range] at *
    omega

theorem self_mem_orbitF (perm : SignedPermutation) (m n : Nat)
    (hN : 0 < m * perm.permutation.length + n) (s : Strand) :
    s ∈ orbitF perm m n s := by
  rw [orbitF, Finset.mem_image]
  exact ⟨0, Finset.mem_range.mpr hN, rfl⟩

theorem iter_mem_orbitF (perm : SignedPermutation) (m n : Nat) {s : Strand} {d : Nat}
    (hd : 0 < d) (hdN : d ≤ m * perm.permutation.length + n)
    (hfix : (nextS perm m n)^[d] s = s) (j : Nat) :
    (nextS perm m n)^[j] s ∈ orbitF perm m n s := by
  rw [orbitF, Finset.mem_image]
  exact ⟨j % d, Finset.mem_range.mpr (by have := Nat.mod_lt j hd; omega),
    (iter_mod perm m n hd hfix j).symm⟩

theorem orbitF_subset_space (perm : SignedPermutation) (hv : perm.Valid) (m n : Nat)
    (hm : 0 < m) (hn : 0 < n) {s : Strand}
    (hs : s ∈ strandSpace perm.permutation.length m n) :
    orbitF perm m n s ⊆ strandSpace perm.permutation.length m n := by
  intro x hx
  rw [orbitF, Finset.mem_image] at hx
  obtain ⟨k, _, rfl⟩ := hx
  exact iter_mem perm hv m n hm hn hs k

theorem iter_injOn_range (perm : SignedPermutation) (hv : perm.Valid) (m n : Nat)
    (hm : 0 < m) (hn : 0 < n) {s : Strand}
    (hs : s ∈ strandSpace perm.permutation.length m n) {d : Nat}
    (hmin : ∀ e, 0 < e → e < d → (nextS perm m n)^[e] s ≠ s) :
    Set.InjOn (fun k => (nextS perm m n)^[k] s) (Finset.range d) := by
  intro a ha b hb heq
  simp only [Finset.coe_range, Set.mem_Iio] at ha hb
  by_contra hne
  rcases lt_or_gt_of_ne hne with h | h
  · exact hmin (b - a) (by omega) (by omega)
      (iter_eq_shift perm hv m n hm hn hs h heq)
  · exact hmin (a - b) (by omega) (by omega)
      (iter_eq_shift perm hv m n hm hn hs h heq.symm)

theorem card_orbitF (perm : SignedPermutation) (hv : perm.Valid) (m n : Nat)
    (hm : 0 < m) (hn : 0 < n) {s : Strand}
    (hs : s ∈ strandSpace perm.permutation.length m n) {d : Nat}
    (hd : 0 < d) (hdN : d ≤ m * perm.permutation.length + n)
    (hfix : (nextS perm m n)^[d] s = s)
    (hmin : ∀ e, 0 < e → e < d → (nextS perm m n)^[e] s ≠ s) :
    (orbitF perm m n s).card = d := by
  rw [orbitF_eq perm m n hd hdN hfix,
    Finset.card_image_of_injOn (iter_injOn_range perm hv m n hm hn hs hmin),
    Finset.card_range]

theorem orbitF_eq_of_mem (perm : SignedPermutation) (hv : perm.Valid) (m n : Nat)
    (hm : 0 < m) (hn : 0 < n) {s t : Strand}
    (hs : s ∈ strandSpace perm.permutation.length m n)
    (ht : t ∈ orbitF perm m n s) : orbitF perm m n t = orbitF perm m n s := by
  obtain ⟨d, hd, hdN, hfix, hmin⟩ := exists_min_period perm hv m n hm hn hs
  rw [orbitF_eq perm m n hd hdN hfix, Finset.mem_image] at ht
  obtain ⟨j, hj, rfl⟩ := ht
  rw [Finset.mem_range] at hj
  apply Finset.Subset.antisymm
  · intro x hx
    rw [orbitF, Finset.mem_image] at hx
    obtain ⟨k, _, rfl⟩ := hx
    rw [← Function.iterate_add_apply]
    exact iter_mem_orbitF perm m n hd hdN hfix (k + j)
  · intro x hx
    rw [orbitF, Finset.mem_image] at hx
    obtain ⟨k, _, rfl⟩ := hx
    rw [orbitF, Finset.mem_image]
    refine ⟨(k + d - j) % d, Finset.mem_range.mpr
      (by have := Nat.mod_lt (k + d - j) hd; omega), ?_⟩
    rw [← Function.iterate_add_apply]
    rw [iter_mod perm m n hd hfix ((k + d - j) % d + j),
      iter_mod perm m n hd hfix k]
    congr 1
    conv_lhs => rw [Nat.mod_add_mod]
    have harith : k + d - j + j = k + d := by omega
    rw [harith, Nat.add_mod_right]

theorem sum_flags_orbit (perm : SignedPermutation) (hv : perm.Valid) (m n : Nat)
    (hm : 0 < m) (hn : 0 < n) {s : Strand}
    (hs : s ∈ strandSpace perm.permutation.length m n) {d : Nat}
    (hd : 0 < d) (hdN : d ≤ m * perm.permutation.length + n)
    (hfix : (nextS perm m n)^[d] s = s)
    (hmin : ∀ e, 0 < e → e < d → (nextS perm m n)^[e] s ≠ s) :
    ∑ k ∈ Finset.range d, flagS perm m n ((nextS perm m n)^[k] s) =
      ∑ x ∈ orbitF perm m n s, flagS perm m n x := by
  rw [orbitF_eq perm m n hd hdN hfix]
  rw [Finset.sum_image]
  intro a ha b hb h
  exact iter_injOn_range perm hv m n hm hn hs hmin
    (by simpa using ha) (by simpa using hb) h

theorem orbitParity_eq_of_mem (perm : SignedPermutation) (hv : perm.Valid)
    (m n : Nat) (hm : 0 < m) (hn : 0 < n) {s t : Strand}
    (hs : s ∈ strandSpace perm.permutation.length m n)
    (ht : t ∈ orbitF perm m n s) :
    orbitParity perm m n t = orbitParity perm m n s := by
  rw [orbitParity, orbitParity, orbitF_eq_of_mem perm hv m n hm hn hs ht]

/-- Claim C1: for every valid `SignedPermutation` of length `L` and all
`m ≥ 1`, `n ≥ 1`, `get_next_major_strand` is a total bijection on the strand
space of size `L·m + n`: on every in-range strand it succeeds (no domain
error) and lands back in the space, it is injective there, and every strand of
the space has a predecessor in the space — so every strand has exactly one
successor and exactly one predecessor and the orbits partition the space. -/
theorem transition_total_bijection (perm : SignedPermutation) (hv : perm.Valid)
    (m n : Nat) (hm : 1 ≤ m) (hn : 1 ≤ n) :
    (∀ s ∈ strandSpace perm.permutation.length m n, ∃ t f,
        get_next_major_strand perm m n s = some (t, f) ∧
        t ∈ strandSpace perm.permutation.length m n) ∧
    (∀ s1 ∈ strandSpace perm.permutation.length m n,
      ∀ s2 ∈ strandSpace perm.permutation.length m n,
        nextS perm m n s1 = nextS perm m n s2 → s1 = s2) ∧
    (∀ t ∈ strandSpace perm.permutation.length m n,
      ∃ s ∈ strandSpace perm.permutation.length m n, nextS perm m n s = t) := by
  refine ⟨?_, ?_, ?_⟩
  · intro s hs
    exact ⟨nextS perm m n s, flagS perm m n s, getNext_eq_pair perm hv m n hm hn hs,
      nextS_mem perm hv m n hm hn hs⟩
  · intro s1 h1 s2 h2 heq
    exact nextS_injOn perm hv m n hm hn h1 h2 heq
  · intro t ht
    obtain ⟨d, hd, hdN, hfix, hmin⟩ := exists_min_period perm hv m n hm hn ht
    refine ⟨(nextS perm m n)^[d - 1] t, iter_mem perm hv m n hm hn ht (d - 1), ?_⟩
    have : nextS perm m n ((nextS perm m n)^[d - 1] t) =
        (nextS perm m n)^[d - 1 + 1] t := (Function.iterate_succ_apply' _ _ _).symm
    rw [this]
    have hd1 : d - 1 + 1 = d := by omega
    rw [hd1, hfix]

/-- Claim C1 witness: the theorem applied to a concrete valid permutation. -/
theorem transition_total_bijection_witness :
    (∀ s ∈ strandSpace (SignedPermutation.mk [1, 0] {0}).permutation.length 1 1,
      ∃ t f, get_next_major_strand ⟨[1, 0], {0}⟩ 1 1 s = some (t, f) ∧
        t ∈ strandSpace (SignedPermutation.mk [1, 0] {0}).permutation.length 1 1) ∧
    (∀ s1 ∈ strandSpace (SignedPermutation.mk [1, 0] {0}).permutation.length 1 1,
      ∀ s2 ∈ strandSpace (SignedPermutation.mk [1, 0] {0}).permutation.length 1 1,
        nextS ⟨[1, 0], {0}⟩ 1 1 s1 = nextS ⟨[1, 0], {0}⟩ 1 1 s2 → s1 = s2) ∧
    (∀ t ∈ strandSpace (SignedPermutation.mk [1, 0] {0}).permutation.length 1 1,
      ∃ s ∈ strandSpace (SignedPermutation.mk [1, 0] {0}).permutation.length 1 1,
        nextS ⟨[1, 0], {0}⟩ 1 1 s = t) :=
  transition_total_bijection ⟨[1, 0], {0}⟩ (by decide) 1 1 (by decide) (by decide)

/-- Claim C2: on every strand of the strand space, `get_next_major_strand`
computes exactly the §4.1 transition rule (flip adjustment `k′ = m−k−1` with
flag 1 when `j` is flipped, image under the stored permutation vector,
absolute position `m·j′+k′`, advance by `n` with div/mod decomposition or exit
to `Transverse(L·m − absolute − 1)`; transverse advance by `L·m` or re-entry at
`(n−i−1)` with flag 0), with no domain error. -/
theorem get_next_matches_rule (perm : SignedPermutation) (hv : perm.Valid)
    (m n : Nat) (hm : 1 ≤ m) (hn : 1 ≤ n) (s : Strand)
    (hs : s ∈ strandSpace perm.permutation.length m n) :
    get_next_major_strand perm m n s = some (specTransition perm m n s) :=
  (step_lemma perm hv m n hm hn s hs).1

/-- Claim C2 witness: the theorem applied at a concrete input. -/
theorem get_next_matches_rule_witness :
    get_next_major_strand ⟨[1, 0], {0}⟩ 2 3 (Strand.PermutationDirection 1 1) =
      some (specTransition ⟨[1, 0], {0}⟩ 2 3 (Strand.PermutationDirection 1 1)) :=
  get_next_matches_rule ⟨[1, 0], {0}⟩ (by decide) 2 3 (by decide) (by decide)
    (Strand.PermutationDirection 1 1) (by decide)

/-- Claim C9: concrete scenarios for the identity permutation `[0,1]` with
`m = n = 1`: the full size-3 strand space is a single orbit
`Transverse 0 → PermutationDirection 0 0 → PermutationDirection 1 0 →
Transverse 0`; with no flips `has_one_component` returns `(true, 0)`, and
with flip set `{0}` it returns `(true, 1)` (same path, odd flip parity). -/
theorem identity_scenarios :
    SignedPermutation.new [0, 1] [] = .ok ⟨[0, 1], ∅⟩ ∧
    SignedPermutation.new [0, 1] [0] = .ok ⟨[0, 1], {0}⟩ ∧
    has_one_component ⟨[0, 1], ∅⟩ 1 1 = some (true, 0) ∧
    has_one_component ⟨[0, 1], {0}⟩ 1 1 = some (true, 1) ∧
    get_next_major_strand ⟨[0, 1], ∅⟩ 1 1 (Strand.Transverse 0) =
      some (Strand.PermutationDirection 0 0, 0) ∧
    get_next_major_strand ⟨[0, 1], ∅⟩ 1 1 (Strand.PermutationDirection 0 0) =
      some (Strand.PermutationDirection 1 0, 0) ∧
    get_next_major_strand ⟨[0, 1], ∅⟩ 1 1 (Strand.PermutationDirection 1 0) =
      some (Strand.Transverse 0, 0) ∧
    get_next_major_strand ⟨[0, 1], {0}⟩ 1 1 (Strand.Transverse 0) =
      some (Strand.PermutationDirection 0 0, 0) ∧
    get_next_major_strand ⟨[0, 1], {0}⟩ 1 1 (Strand.PermutationDirection 0 0) =
      some (Strand.PermutationDirection 1 0, 1) ∧
    get_next_major_strand ⟨[0, 1], {0}⟩ 1 1 (Strand.PermutationDirection 1 0) =
      some (Strand.Transverse 0, 0) ∧
    (strandSpace 2 1 1).card = 3 := by
  decide

/-- Claim C10: for `n = 0` the very first transition from `Transverse 0`
reaches the underflowing computation `n − index − 1 = 0 − 0 − 1` and hence the
error branch of the embedding, so `has_one_component` never returns a normal
result: `n ≥ 1` is a hard precondition rather than a silently misreported
case. -/
theorem has_one_component_n_zero (perm : SignedPermutation) (hv : perm.Valid)
    (m : Nat) :
    get_next_major_strand perm m 0 (Strand.Transverse 0) = none ∧
    has_one_component perm m 0 = none := by
  have hstep : get_next_major_strand perm m 0 (Strand.Transverse 0) = none := by
    simp [get_next_major_strand, csub]
  refine ⟨hstep, ?_⟩
  rw [has_one_component]
  rw [hstep]

/-- Claim C10 witness: the theorem applied at a concrete valid permutation. -/
theorem has_one_component_n_zero_witness :
    get_next_major_strand ⟨[0, 1], ∅⟩ 7 0 (Strand.Transverse 0) = none ∧
    has_one_component ⟨[0, 1], ∅⟩ 7 0 = none :=
  has_one_component_n_zero ⟨[0, 1], ∅⟩ (by decide) 7

theorem hoc_loop_eq (perm : SignedPermutation) (hv : perm.Valid) (m n : Nat)
    (hm : 0 < m) (hn : 0 < n) {d : Nat} (hd : 0 < d)
    (hfix : (nextS perm m n)^[d] (Strand.Transverse 0) = Strand.Transverse 0)
    (hmin : ∀ e, 0 < e → e < d →
      (nextS perm m n)^[e] (Strand.Transverse 0) ≠ Strand.Transverse 0) :
    ∀ fuel j, 0 < j → j ≤ d → d < fuel + j →
      has_one_component_loop perm m n fuel
        ((nextS perm m n)^[j] (Strand.Transverse 0))
        ((∑ k ∈ Finset.range j,
          flagS perm m n ((nextS perm m n)^[k] (Strand.Transverse 0))) % 2) j =
      some (d, (∑ k ∈ Finset.range d,
        flagS perm m n ((nextS perm m n)^[k] (Strand.Transverse 0))) % 2) := by
  intro fuel
  induction fuel with
  | zero => intro j hj hjd hfuel; omega
  | succ fuel ih =>
    intro j hj hjd hfuel
    rw [has_one_component_loop]
    by_cases hcur : (nextS perm m n)^[j] (Strand.Transverse 0) = Strand.Transverse 0
    · rw [if_pos hcur]
      have hjId : j = d := by
        by_contra hne
        exact hmin j hj (by omega) hcur
      rw [hjId]
    · rw [if_neg hcur]
      have hjd' : j < d := by
        rcases Nat.eq_or_lt_of_le hjd with h | h
        · subst h; exact absurd hfix hcur
        · exact h
      have hT0 : Strand.Transverse 0 ∈ strandSpace perm.permutation.length m n := by
        rw [mem_strandSpace_transverse]; omega
      have hmem : (nextS perm m n)^[j] (Strand.Transverse 0) ∈
          strandSpace perm.permutation.length m n :=
        iter_mem perm hv m n hm hn hT0 j
      rw [getNext_eq_pair perm hv m n hm hn hmem]
      show has_one_component_loop perm m n fuel
        (nextS perm m n ((nextS perm m n)^[j] (Strand.Transverse 0)))
        (((∑ k ∈ Finset.range j,
          flagS perm m n ((nextS perm m n)^[k] (Strand.Transverse 0))) % 2 +
          flagS perm m n ((nextS perm m n)^[j] (Strand.Transverse 0))) % 2)
        (j + 1) = _
      have hstep : nextS perm m n ((nextS perm m n)^[j] (Strand.Transverse 0)) =
          (nextS perm m n)^[j + 1] (Strand.Transverse 0) :=
        (Function.iterate_succ_apply' _ _ _).symm
      have hsum : ((∑ k ∈ Finset.range j,
          flagS perm m n ((nextS perm m n)^[k] (Strand.Transverse 0))) % 2 +
          flagS perm m n ((nextS perm m n)^[j] (Strand.Transverse 0))) % 2 =
          (∑ k ∈ Finset.range (j + 1),
            flagS perm m n ((nextS perm m n)^[k] (Strand.Transverse 0))) % 2 := by
        rw [Finset.sum_range_succ, Nat.mod_add_mod]
      rw [hstep, hsum]
      exact ih (j + 1) (by omega) (by omega) (by omega)

theorem has_one_component_eq (perm : SignedPermutation) (hv : perm.Valid)
    (m n : Nat) (hm : 0 < m) (hn : 0 < n) :
    ∃ d, 0 < d ∧ d ≤ m * perm.permutation.length + n ∧
      (nextS perm m n)^[d] (Strand.Transverse 0) = Strand.Transverse 0 ∧
      (∀ e, 0 < e → e < d →
        (nextS perm m n)^[e] (Strand.Transverse 0) ≠ Strand.Transverse 0) ∧
      has_one_component perm m n =
        some (m * perm.permutation.length + n == d,
          (∑ k ∈ Finset.range d,
            flagS perm m n ((nextS perm m n)^[k] (Strand.Transverse 0))) % 2) := by
  have hT0 : Strand.Transverse 0 ∈ strandSpace perm.permutation.length m n := by
    rw [mem_strandSpace_transverse]; omega
  obtain ⟨d, hd, hdN, hfix, hmin⟩ := exists_min_period perm hv m n hm hn hT0
  refine ⟨d, hd, hdN, hfix, hmin, ?_⟩
  rw [has_one_component]
  rw [getNext_eq_pair perm hv m n hm hn hT0]
  show (match has_one_component_loop perm m n (m * perm.permutation.length + n)
      (nextS perm m n (Strand.Transverse 0)) (flagS perm m n (Strand.Transverse 0)) 1 with
    | none => none
    | some p => some (m * perm.permutation.length + n == p.1, p.2)) = _
  have h1 : nextS perm m n (Strand.Transverse 0) =
      (nextS perm m n)^[1] (Strand.Transverse 0) := by
    rw [Function.iterate_one]
  have h2 : flagS perm m n (Strand.Transverse 0) =
      (∑ k ∈ Finset.range 1,
        flagS perm m n ((nextS perm m n)^[k] (Strand.Transverse 0))) % 2 := by
    rw [Finset.sum_range_one, Function.iterate_zero_apply]
    have := flagS_le perm hv m n hm hn hT0
    omega
  rw [h1, h2, hoc_loop_eq perm hv m n hm hn hd hfix hmin
    (m * perm.permutation.length + n) 1 (by omega) (by omega) (by omega)]

/-- Claim C4: `has_one_component` walks the transition rule from
`Transverse 0` until `Transverse 0` recurs (after `d` steps, the first
recurrence), and returns `(b, p)` where `b` is true iff the step count equals
the full strand-space size `L·m + n` and `p` is the mod-2 sum of the flip
flags accumulated over the steps of that orbit. -/
theorem has_one_component_walk_spec (perm : SignedPermutation) (hv : perm.Valid)
    (m n : Nat) (hm : 1 ≤ m) (hn : 1 ≤ n) :
    ∃ d, 0 < d ∧ d ≤ m * perm.permutation.length + n ∧
      (nextS perm m n)^[d] (Strand.Transverse 0) = Strand.Transverse 0 ∧
      (∀ e, 0 < e → e < d →
        (nextS perm m n)^[e] (Strand.Transverse 0) ≠ Strand.Transverse 0) ∧
      has_one_component perm m n =
        some (m * perm.permutation.length + n == d,
          (∑ k ∈ Finset.range d,
            flagS perm m n ((nextS perm m n)^[k] (Strand.Transverse 0))) % 2) :=
  has_one_component_eq perm hv m n hm hn

/-- Claim C4 witness: the theorem applied to a concrete valid permutation. -/
theorem has_one_component_walk_spec_witness :
    ∃ d, 0 < d ∧ d ≤ 1 * (SignedPermutation.mk [0, 1] {0}).permutation.length + 1 ∧
      (nextS ⟨[0, 1], {0}⟩ 1 1)^[d] (Strand.Transverse 0) = Strand.Transverse 0 ∧
      (∀ e, 0 < e → e < d →
        (nextS ⟨[0, 1], {0}⟩ 1 1)^[e] (Strand.Transverse 0) ≠ Strand.Transverse 0) ∧
      has_one_component ⟨[0, 1], {0}⟩ 1 1 =
        some (1 * (SignedPermutation.mk [0, 1] {0}).permutation.length + 1 == d,
          (∑ k ∈ Finset.range d,
            flagS ⟨[0, 1], {0}⟩ 1 1
              ((nextS ⟨[0, 1], {0}⟩ 1 1)^[k] (Strand.Transverse 0))) % 2) :=
  has_one_component_walk_spec ⟨[0, 1], {0}⟩ (by decide) 1 1 (by decide) (by decide)

theorem walk_loop_eq (perm : SignedPermutation) (hv : perm.Valid) (m n : Nat)
    (hm : 0 < m) (hn : 0 < n) {s0 : Strand}
    (hs0 : s0 ∈ strandSpace perm.permutation.length m n) {d : Nat} (hd : 0 < d)
    (hfix : (nextS perm m n)^[d] s0 = s0)
    (hmin : ∀ e, 0 < e → e < d → (nextS perm m n)^[e] s0 ≠ s0) :
    ∀ fuel j R acc, 0 < j → j ≤ d → d < fuel + j →
      walk_loop perm m n s0 fuel ((nextS perm m n)^[j] s0) R acc =
        some (R \ (Finset.Ico j d).image (fun k => (nextS perm m n)^[k] s0),
          acc + ∑ k ∈ Finset.Ico j d, flagS perm m n ((nextS perm m n)^[k] s0)) := by
  intro fuel
  induction fuel with
  | zero => intro j R acc hj hjd hfuel; omega
  | succ fuel ih =>
    intro j R acc hj hjd hfuel
    rw [walk_loop]
    by_cases hcur : (nextS perm m n)^[j] s0 = s0
    · have hjd2 : j = d := by
        by_contra hne
        exact hmin j hj (by omega) hcur
      rw [if_pos hcur]
      subst hjd2
      simp
    · rw [if_neg hcur]
      have hjd' : j < d := by
        rcases Nat.eq_or_lt_of_le hjd with h | h
        · subst h; exact absurd hfix hcur
        · exact h
      have hmem := iter_mem perm hv m n hm hn hs0 j
      rw [getNext_eq_pair perm hv m n hm hn hmem]
      show walk_loop perm m n s0 fuel (nextS perm m n ((nextS perm m n)^[j] s0))
        (R.erase ((nextS perm m n)^[j] s0))
        (acc + flagS perm m n ((nextS perm m n)^[j] s0)) = _
      rw [show nextS perm m n ((nextS perm m n)^[j] s0) = (nextS perm m n)^[j + 1] s0
        from (Function.iterate_succ_apply' _ _ _).symm]
      rw [ih (j + 1) _ _ (by omega) (by omega) (by omega)]
      have hset : (R.erase ((nextS perm m n)^[j] s0)) \
          (Finset.Ico (j + 1) d).image (fun k => (nextS perm m n)^[k] s0) =
          R \ (Finset.Ico j d).image (fun k => (nextS perm m n)^[k] s0) := by
        ext x
        simp only [Finset.mem_sdiff, Finset.mem_erase, Finset.mem_image,
          Finset.mem_Ico]
        constructor
        · rintro ⟨⟨hne, hR⟩, hnot⟩
          refine ⟨hR, ?_⟩
          rintro ⟨k, ⟨hk1, hk2⟩, rfl⟩
          rcases Nat.eq_or_lt_of_le hk1 with h | h
          · exact hne (by rw [← h])
          · exact hnot ⟨k, ⟨by omega, hk2⟩, rfl⟩
        · rintro ⟨hR, hnot⟩
          refine ⟨⟨?_, hR⟩, ?_⟩
          · intro hxe
            exact hnot ⟨j, ⟨le_refl j, hjd'⟩, hxe.symm⟩
          · rintro ⟨k, ⟨hk1, hk2⟩, rfl⟩
            exact hnot ⟨k, ⟨by omega, hk2⟩, rfl⟩
      have hsum : acc + flagS perm m n ((nextS perm m n)^[j] s0) +
          ∑ k ∈ Finset.Ico (j + 1) d, flagS perm m n ((nextS perm m n)^[k] s0) =
          acc + ∑ k ∈ Finset.Ico j d, flagS perm m n ((nextS perm m n)^[k] s0) := by
        rw [Finset.sum_eq_sum_Ico_succ_bot hjd']
        ring
      rw [hset, hsum]

theorem orbit_in_closed (perm : SignedPermutation) (m n : Nat) {S : Finset Strand}
    (hclosed : ∀ s ∈ S, nextS perm m n s ∈ S) {first : Strand} (hfirst : first ∈ S) :
    ∀ k, (nextS perm m n)^[k] first ∈ S := by
  intro k
  induction k with
  | zero => exact hfirst
  | succ k ih =>
      rw [Function.iterate_succ_apply']
      exact hclosed _ ih

theorem orbit_step (perm : SignedPermutation) (hv : perm.Valid) (m n : Nat)
    (hm : 0 < m) (hn : 0 < n) {S : Finset Strand}
    (hS : S ⊆ strandSpace perm.permutation.length m n)
    (hclosed : ∀ s ∈ S, nextS perm m n s ∈ S) {first : Strand} (hfirst : first ∈ S) :
    ∃ P, walk_loop perm m n first (m * perm.permutation.length + n)
        (nextS perm m n first) (S.erase first) (flagS perm m n first) =
        some (S \ orbitF perm m n first, P) ∧
      P % 2 = orbitParity perm m n first ∧
      orbitF perm m n first ⊆ S ∧
      (∀ x ∈ S \ orbitF perm m n first,
        nextS perm m n x ∈ S \ orbitF perm m n first) ∧
      (S \ orbitF perm m n first).card + (orbitF perm m n first).card = S.card ∧
      0 < (orbitF perm m n first).card := by
  have hfsp : first ∈ strandSpace perm.permutation.length m n := hS hfirst
  obtain ⟨d, hd, hdN, hfix, hmin⟩ := exists_min_period perm hv m n hm hn hfsp
  have horbit : orbitF perm m n first =
      (Finset.range d).image fun k => (nextS perm m n)^[k] first :=
    orbitF_eq perm m n hd hdN hfix
  have hwalk := walk_loop_eq perm hv m n hm hn hfsp hd hfix hmin
    (m * perm.permutation.length + n) 1 (S.erase first) (flagS perm m n first)
    (by omega) (by omega) (by omega)
  rw [Function.iterate_one] at hwalk
  have hset : (S.erase first) \
      (Finset.Ico 1 d).image (fun k => (nextS perm m n)^[k] first) =
      S \ orbitF perm m n first := by
    rw [horbit]
    ext x
    simp only [Finset.mem_sdiff, Finset.mem_erase, Finset.mem_image,
      Finset.mem_Ico, Finset.mem_range]
    constructor
    · rintro ⟨⟨hne, hR⟩, hnot⟩
      refine ⟨hR, ?_⟩
      rintro ⟨k, hk, rfl⟩
      rcases Nat.eq_zero_or_pos k with h | h
      · subst h
        exact hne (by simp)
      · exact hnot ⟨k, ⟨h, hk⟩, rfl⟩
    · rintro ⟨hR, hnot⟩
      refine ⟨⟨?_, hR⟩, ?_⟩
      · intro hxe
        exact hnot ⟨0, hd, by simp [hxe]⟩
      · rintro ⟨k, ⟨hk1, hk2⟩, rfl⟩
        exact hnot ⟨k, hk2, rfl⟩
  have hsum : flagS perm m n first +
      ∑ k ∈ Finset.Ico 1 d, flagS perm m n ((nextS perm m n)^[k] first) =
      ∑ k ∈ Finset.range d, flagS perm m n ((nextS perm m n)^[k] first) := by
    rw [Finset.range_eq_Ico, Finset.sum_eq_sum_Ico_succ_bot hd]
    simp
  have horbsub : orbitF perm m n first ⊆ S := by
    rw [horbit]
    intro x hx
    rw [Finset.mem_image] at hx
    obtain ⟨k, _, rfl⟩ := hx
    exact orbit_in_closed perm m n hclosed hfirst k
  have hclosed2 : ∀ x ∈ S \ orbitF perm m n first,
      nextS perm m n x ∈ S \ orbitF perm m n first := by
    intro x hx
    rw [Finset.mem_sdiff] at hx
    obtain ⟨hxS, hxnot⟩ := hx
    rw [Finset.mem_sdiff]
    refine ⟨hclosed _ hxS, ?_⟩
    intro hmem
    apply hxnot
    rw [horbit, Finset.mem_image] at hmem
    obtain ⟨k, hk, heq⟩ := hmem
    rw [Finset.mem_range] at hk
    rcases Nat.eq_zero_or_pos k with h | h
    · subst h
      simp only [Function.iterate_zero_apply] at heq
      have hx1 : nextS perm m n x = nextS perm m n ((nextS perm m n)^[d - 1] first) := by
        conv_lhs => rw [← heq, ← hfix]
        rw [show d = d - 1 + 1 by omega, Function.iterate_succ_apply']
        rw [show d - 1 + 1 - 1 = d - 1 by omega]
      have hx2 : x = (nextS perm m n)^[d - 1] first :=
        nextS_injOn perm hv m n hm hn (hS hxS)
          (iter_mem perm hv m n hm hn hfsp (d - 1)) hx1
      rw [hx2]
      exact iter_mem_orbitF perm m n hd hdN hfix (d - 1)
    · have hx1 : nextS perm m n x = nextS perm m n ((nextS perm m n)^[k - 1] first) := by
        conv_lhs => rw [← heq]
        rw [show k = k - 1 + 1 by omega, Function.iterate_succ_apply']
        rw [show k - 1 + 1 - 1 = k - 1 by omega]
      have hx2 : x = (nextS perm m n)^[k - 1] first :=
        nextS_injOn perm hv m n hm hn (hS hxS)
          (iter_mem perm hv m n hm hn hfsp (k - 1)) hx1
      rw [hx2]
      exact iter_mem_orbitF perm m n hd hdN hfix (k - 1)
  have hcard : (S \ orbitF perm m n first).card + (orbitF perm m n first).card =
      S.card := by
    rw [Finset.card_sdiff horbsub]
    have := Finset.card_le_card horbsub
    omega
  have hpos : 0 < (orbitF perm m n first).card := by
    rw [card_orbitF perm hv m n hm hn hfsp hd hdN hfix hmin]
    exact hd
  refine ⟨flagS perm m n first +
      ∑ k ∈ Finset.Ico 1 d, flagS perm m n ((nextS perm m n)^[k] first),
    ?_, ?_, horbsub, hclosed2, hcard, hpos⟩
  · rw [hwalk, hset]
  · rw [hsum, sum_flags_orbit perm hv m n hm hn hfsp hd hdN hfix hmin, orbitParity]

theorem orbit_notin_image (perm : SignedPermutation) (m n : Nat)
    (hN : 0 < m * perm.permutation.length + n) {first : Strand}
    {T : Finset Strand} (hT : ∀ t ∈ T, t ∉ orbitF perm m n first) :
    orbitF perm m n first ∉ T.image (orbitF perm m n) := by
  intro hmem
  rw [Finset.mem_image] at hmem
  obtain ⟨t, htT, heq⟩ := hmem
  have hself : t ∈ orbitF perm m n t := self_mem_orbitF perm m n hN t
  rw [heq] at hself
  exact hT t htT hself

theorem filter_image_step (perm : SignedPermutation) (hv : perm.Valid)
    (m n : Nat) (hm : 0 < m) (hn : 0 < n) {S : Finset Strand}
    (hS : S ⊆ strandSpace perm.permutation.length m n) {first : Strand}
    (hfirst : first ∈ S) (P : Nat → Prop) [DecidablePred P] :
    (P (orbitParity perm m n first) →
      (S.filter fun s => P (orbitParity perm m n s)).image (orbitF perm m n) =
        insert (orbitF perm m n first)
          (((S \ orbitF perm m n first).filter
            fun s => P (orbitParity perm m n s)).image (orbitF perm m n))) ∧
    (¬ P (orbitParity perm m n first) →
      (S.filter fun s => P (orbitParity perm m n s)).image (orbitF perm m n) =
        ((S \ orbitF perm m n first).filter
          fun s => P (orbitParity perm m n s)).image (orbitF perm m n)) := by
  have hfsp : first ∈ strandSpace perm.permutation.length m n := hS hfirst
  constructor
  · intro hP
    apply Finset.Subset.antisymm
    · intro X hX
      rw [Finset.mem_image] at hX
      obtain ⟨t, ht, rfl⟩ := hX
      rw [Finset.mem_filter] at ht
      obtain ⟨htS, htP⟩ := ht
      by_cases hto : t ∈ orbitF perm m n first
      · rw [Finset.mem_insert]
        left
        exact orbitF_eq_of_mem perm hv m n hm hn hfsp hto
      · rw [Finset.mem_insert]
        right
        rw [Finset.mem_image]
        refine ⟨t, ?_, rfl⟩
        rw [Finset.mem_filter, Finset.mem_sdiff]
        exact ⟨⟨htS, hto⟩, htP⟩
    · rw [Finset.insert_subset_iff]
      constructor
      · rw [Finset.mem_image]
        refine ⟨first, ?_, rfl⟩
        rw [Finset.mem_filter]
        exact ⟨hfirst, hP⟩
      · apply Finset.image_subset_image
        intro t ht
        rw [Finset.mem_filter, Finset.mem_sdiff] at ht
        rw [Finset.mem_filter]
        exact ⟨ht.1.1, ht.2⟩
  · intro hnP
    apply Finset.Subset.antisymm
    · intro X hX
      rw [Finset.mem_image] at hX
      obtain ⟨t, ht, rfl⟩ := hX
      rw [Finset.mem_filter] at ht
      obtain ⟨htS, htP⟩ := ht
      have hto : t ∉ orbitF perm m n first := by
        intro hto
        rw [orbitParity_eq_of_mem perm hv m n hm hn hfsp hto] at htP
        exact hnP htP
      rw [Finset.mem_image]
      refine ⟨t, ?_, rfl⟩
      rw [Finset.mem_filter, Finset.mem_sdiff]
      exact ⟨⟨htS, hto⟩, htP⟩
    · apply Finset.image_subset_image
      intro t ht
      rw [Finset.mem_filter, Finset.mem_sdiff] at ht
      rw [Finset.mem_filter]
      exact ⟨ht.1.1, ht.2⟩

theorem evenOddOrbits_step (perm : SignedPermutation) (hv : perm.Valid)
    (m n : Nat) (hm : 0 < m) (hn : 0 < n) {S : Finset Strand}
    (hS : S ⊆ strandSpace perm.permutation.length m n) {first : Strand}
    (hfirst : first ∈ S) :
    (orbitParity perm m n first = 0 →
      evenOrbits perm m n S =
        evenOrbits perm m n (S \ orbitF perm m n first) + 1 ∧
      oddOrbits perm m n S = oddOrbits perm m n (S \ orbitF perm m n first)) ∧
    (¬ orbitParity perm m n first = 0 →
      evenOrbits perm m n S = evenOrbits perm m n (S \ orbitF perm m n first) ∧
      oddOrbits perm m n S =
        oddOrbits perm m n (S \ orbitF perm m n first) + 1) := by
  have hN : 0 < m * perm.permutation.length + n := by omega
  have hnotin : ∀ (p : Nat → Prop) [DecidablePred p],
      orbitF perm m n first ∉
        (((S \ orbitF perm m n first).filter
          fun s => p (orbitParity perm m n s)).image (orbitF perm m n)) := by
    intro p hp
    apply orbit_notin_image perm m n hN
    intro t ht
    rw [Finset.mem_filter, Finset.mem_sdiff] at ht
    exact ht.1.2
  constructor
  · intro hpar
    constructor
    · rw [evenOrbits, evenOrbits,
        (filter_image_step perm hv m n hm hn hS hfirst fun x => x = 0).1 hpar,
        Finset.card_insert_of_not_mem (hnotin fun x => x = 0)]
    · rw [oddOrbits, oddOrbits,
        (filter_image_step perm hv m n hm hn hS hfirst fun x => ¬ x = 0).2
          (by simpa using hpar)]
  · intro hpar
    constructor
    · rw [evenOrbits, evenOrbits,
        (filter_image_step perm hv m n hm hn hS hfirst fun x => x = 0).2 hpar]
    · rw [oddOrbits, oddOrbits,
        (filter_image_step perm hv m n hm hn hS hfirst fun x => ¬ x = 0).1 hpar,
        Finset.card_insert_of_not_mem (hnotin fun x => ¬ x = 0)]

theorem count_loop_pick_eq (perm : SignedPermutation) (hv : perm.Valid)
    (m n : Nat) (hm : 0 < m) (hn : 0 < n) (pick : Finset Strand → Strand)
    (hpick : ∀ S : Finset Strand, S.Nonempty → pick S ∈ S) :
    ∀ fuel (S : Finset Strand) (two one : Nat),
      S ⊆ strandSpace perm.permutation.length m n →
      (∀ s ∈ S, nextS perm m n s ∈ S) → S.card < fuel →
      count_loop_pick perm m n pick fuel S two one =
        some (two + evenOrbits perm m n S, one + oddOrbits perm m n S) := by
  intro fuel
  induction fuel with
  | zero => intro S two one _ _ h; omega
  | succ fuel ih =>
    intro S two one hS hclosed hcard
    rw [count_loop_pick]
    by_cases hne : S.Nonempty
    · rw [if_pos hne]
      have hfirst : pick S ∈ S := hpick S hne
      obtain ⟨P, hwalk, hP2, horb_sub, hclosed2, hcard2, hdpos⟩ :=
        orbit_step perm hv m n hm hn hS hclosed hfirst
      rw [getNext_eq_pair perm hv m n hm hn (hS hfirst)]
      show (match walk_loop perm m n (pick S) (m * perm.permutation.length + n)
          (nextS perm m n (pick S)) (S.erase (pick S))
          (flagS perm m n (pick S)) with
        | none => none
        | some q =>
            if q.2 % 2 = 0 then count_loop_pick perm m n pick fuel q.1 (two + 1) one
            else count_loop_pick perm m n pick fuel q.1 two (one + 1)) = _
      rw [hwalk]
      show (if P % 2 = 0 then
          count_loop_pick perm m n pick fuel (S \ orbitF perm m n (pick S)) (two + 1) one
        else
          count_loop_pick perm m n pick fuel (S \ orbitF perm m n (pick S)) two (one + 1)) = _
      have hcard3 : (S \ orbitF perm m n (pick S)).card < fuel := by omega
      have hsub : S \ orbitF perm m n (pick S) ⊆
          strandSpace perm.permutation.length m n :=
        le_trans (Finset.sdiff_subset) hS
      by_cases hpar : P % 2 = 0
      · rw [if_pos hpar, ih _ _ _ hsub hclosed2 hcard3]
        have hpar0 : orbitParity perm m n (pick S) = 0 := by rw [← hP2]; exact hpar
        obtain ⟨he, ho⟩ :=
          (evenOddOrbits_step perm hv m n hm hn hS hfirst).1 hpar0
        rw [he, ho]
        have : two + 1 + evenOrbits perm m n (S \ orbitF perm m n (pick S)) =
            two + (evenOrbits perm m n (S \ orbitF perm m n (pick S)) + 1) := by omega
        rw [this]
      · rw [if_neg hpar, ih _ _ _ hsub hclosed2 hcard3]
        have hpar1 : ¬ orbitParity perm m n (pick S) = 0 := by rw [← hP2]; exact hpar
        obtain ⟨he, ho⟩ :=
          (evenOddOrbits_step perm hv m n hm hn hS hfirst).2 hpar1
        rw [he, ho]
        have : one + 1 + oddOrbits perm m n (S \ orbitF perm m n (pick S)) =
            one + (oddOrbits perm m n (S \ orbitF perm m n (pick S)) + 1) := by omega
        rw [this]
    · rw [if_neg hne]
      rw [Finset.not_nonempty_iff_eq_empty] at hne
      subst hne
      simp [evenOrbits, oddOrbits]

theorem count_loop_eq_pick (perm : SignedPermutation) (m n : Nat) :
    ∀ fuel S two one, count_loop perm m n fuel S two one =
      count_loop_pick perm m n minPick fuel S two one := by
  intro fuel
  induction fuel with
  | zero => intro S two one; rfl
  | succ fuel ih =>
    intro S two one
    rw [count_loop, count_loop_pick]
    by_cases hne : S.Nonempty
    · rw [dif_pos hne, if_pos hne]
      have hmp : minPick S = S.min' hne := by rw [minPick, dif_pos hne]
      rw [hmp]
      cases hg : get_next_major_strand perm m n (S.min' hne) with
      | none => rfl
      | some r =>
        show (match walk_loop perm m n (S.min' hne)
            (m * perm.permutation.length + n) r.1 (S.erase (S.min' hne)) r.2 with
          | none => none
          | some q =>
              if q.2 % 2 = 0 then count_loop perm m n fuel q.1 (two + 1) one
              else count_loop perm m n fuel q.1 two (one + 1)) =
          (match walk_loop perm m n (S.min' hne)
            (m * perm.permutation.length + n) r.1 (S.erase (S.min' hne)) r.2 with
          | none => none
          | some q =>
              if q.2 % 2 = 0 then count_loop_pick perm m n minPick fuel q.1 (two + 1) one
              else count_loop_pick perm m n minPick fuel q.1 two (one + 1))
        cases hw : walk_loop perm m n (S.min' hne)
            (m * perm.permutation.length + n) r.1 (S.erase (S.min' hne)) r.2 with
        | none => rfl
        | some q =>
          show (if q.2 % 2 = 0 then count_loop perm m n fuel q.1 (two + 1) one
              else count_loop perm m n fuel q.1 two (one + 1)) =
            (if q.2 % 2 = 0 then count_loop_pick perm m n minPick fuel q.1 (two + 1) one
              else count_loop_pick perm m n minPick fuel q.1 two (one + 1))
          by_cases hq : q.2 % 2 = 0
          · rw [if_pos hq, if_pos hq, ih]
          · rw [if_neg hq, if_neg hq, ih]
    · rw [dif_neg hne, if_neg hne]

theorem count_components_eq (perm : SignedPermutation) (hv : perm.Valid)
    (m n : Nat) (hm : 0 < m) (hn : 0 < n) :
    count_components_with_orientability perm m n =
      some (evenOrbits perm m n (strandSpace perm.permutation.length m n),
        oddOrbits perm m n (strandSpace perm.permutation.length m n)) := by
  rw [count_components_with_orientability, count_loop_eq_pick]
  have h := count_loop_pick_eq perm hv m n hm hn minPick
    (fun S hS => by rw [minPick, dif_pos hS]; exact S.min'_mem hS)
    (m * perm.permutation.length + n + 1)
    (strandSpace perm.permutation.length m n) 0 0
    (le_refl _) (fun s hs => nextS_mem perm hv m n hm hn hs)
    (by rw [card_strandSpace]; omega)
  simpa using h

theorem even_add_odd (perm : SignedPermutation) (hv : perm.Valid)
    (m n : Nat) (hm : 0 < m) (hn : 0 < n) {S : Finset Strand}
    (hS : S ⊆ strandSpace perm.permutation.length m n) :
    evenOrbits perm m n S + oddOrbits perm m n S =
      (S.image (orbitF perm m n)).card := by
  have hdisj : Disjoint
      ((S.filter fun s => orbitParity perm m n s = 0).image (orbitF perm m n))
      ((S.filter fun s => ¬ orbitParity perm m n s = 0).image (orbitF perm m n)) := by
    rw [Finset.disjoint_left]
    intro X hX1 hX2
    rw [Finset.mem_image] at hX1 hX2
    obtain ⟨t1, ht1, rfl⟩ := hX1
    obtain ⟨t2, ht2, heq2⟩ := hX2
    rw [Finset.mem_filter] at ht1 ht2
    apply ht2.2
    rw [orbitParity, heq2, ← orbitParity, ht1.2]
  rw [evenOrbits, oddOrbits, ← Finset.card_union_of_disjoint hdisj,
    ← Finset.image_union, Finset.filter_union_filter_neg_eq]

theorem single_orbit_iff (perm : SignedPermutation) (hv : perm.Valid) (m n : Nat)
    (hm : 0 < m) (hn : 0 < n) {d : Nat} (hd : 0 < d)
    (hdN : d ≤ m * perm.permutation.length + n)
    (hfix : (nextS perm m n)^[d] (Strand.Transverse 0) = Strand.Transverse 0)
    (hmin : ∀ e, 0 < e → e < d →
      (nextS perm m n)^[e] (Strand.Transverse 0) ≠ Strand.Transverse 0) :
    (d = m * perm.permutation.length + n ↔
      ((strandSpace perm.permutation.length m n).image (orbitF perm m n)).card = 1) ∧
    (d = m * perm.permutation.length + n →
      orbitF perm m n (Strand.Transverse 0) =
        strandSpace perm.permutation.length m n) := by
  have hT0 : Strand.Transverse 0 ∈ strandSpace perm.permutation.length m n := by
    rw [mem_strandSpace_transverse]; omega
  have hsub := orbitF_subset_space perm hv m n hm hn hT0
  have hcardO := card_orbitF perm hv m n hm hn hT0 hd hdN hfix hmin
  have hfull : d = m * perm.permutation.length + n →
      orbitF perm m n (Strand.Transverse 0) =
        strandSpace perm.permutation.length m n := by
    intro hdn
    exact Finset.eq_of_subset_of_card_le hsub
      (by rw [card_strandSpace, hcardO, hdn])
  refine ⟨⟨?_, ?_⟩, hfull⟩
  · intro hdn
    have horb := hfull hdn
    have himg : (strandSpace perm.permutation.length m n).image (orbitF perm m n) =
        {orbitF perm m n (Strand.Transverse 0)} := by
      apply Finset.Subset.antisymm
      · intro X hX
        rw [Finset.mem_image] at hX
        obtain ⟨t, ht, rfl⟩ := hX
        rw [Finset.mem_singleton]
        apply orbitF_eq_of_mem perm hv m n hm hn hT0
        rw [horb]
        exact ht
      · rw [Finset.singleton_subset_iff, Finset.mem_image]
        exact ⟨Strand.Transverse 0, hT0, rfl⟩
    rw [himg, Finset.card_singleton]
  · intro hcard1
    obtain ⟨X, hX⟩ := Finset.card_eq_one.mp hcard1
    have hspace_sub : strandSpace perm.permutation.length m n ⊆
        orbitF perm m n (Strand.Transverse 0) := by
      intro t ht
      have h1 : orbitF perm m n t ∈
          (strandSpace perm.permutation.length m n).image (orbitF perm m n) :=
        Finset.mem_image_of_mem _ ht
      have h2 : orbitF perm m n (Strand.Transverse 0) ∈
          (strandSpace perm.permutation.length m n).image (orbitF perm m n) :=
        Finset.mem_image_of_mem _ hT0
      rw [hX, Finset.mem_singleton] at h1 h2
      have heq12 : orbitF perm m n t = orbitF perm m n (Strand.Transverse 0) := by
        rw [h1, h2]
      have hself : t ∈ orbitF perm m n t := self_mem_orbitF perm m n (by omega) t
      rw [heq12] at hself
      exact hself
    have horb : orbitF perm m n (Strand.Transverse 0) =
        strandSpace perm.permutation.length m n :=
      Finset.Subset.antisymm hsub hspace_sub
    rw [← hcardO, horb, card_strandSpace]

/-- Claim C5: `has_one_component` returns true in its first component iff the
totals of `count_components_with_orientability` sum to exactly one component,
and in that case the parity returned by `has_one_component` matches the
classification: parity 0 iff the single component is counted two-sided. -/
theorem has_one_component_consistent (perm : SignedPermutation) (hv : perm.Valid)
    (m n : Nat) (hm : 1 ≤ m) (hn : 1 ≤ n) :
    ∃ b p t o, has_one_component perm m n = some (b, p) ∧
      count_components_with_orientability perm m n = some (t, o) ∧
      (b = true ↔ t + o = 1) ∧
      (b = true → (p = 0 ∧ t = 1 ∧ o = 0) ∨ (p = 1 ∧ t = 0 ∧ o = 1)) := by
  have hT0 : Strand.Transverse 0 ∈ strandSpace perm.permutation.length m n := by
    rw [mem_strandSpace_transverse]; omega
  obtain ⟨d, hd, hdN, hfix, hmin, heq⟩ := has_one_component_eq perm hv m n hm hn
  obtain ⟨hiff, hfull⟩ := single_orbit_iff perm hv m n hm hn hd hdN hfix hmin
  have hEO := even_add_odd perm hv m n hm hn
    (Finset.Subset.refl (strandSpace perm.permutation.length m n))
  refine ⟨_, _, _, _, heq, count_components_eq perm hv m n hm hn, ?_, ?_⟩
  · constructor
    · intro hb
      have hdn : d = m * perm.permutation.length + n := (beq_iff_eq.mp hb).symm
      rw [hEO]
      exact hiff.mp hdn
    · intro h1
      rw [hEO] at h1
      exact beq_iff_eq.mpr (hiff.mpr h1).symm
  · intro hb
    have hdn : d = m * perm.permutation.length + n := (beq_iff_eq.mp hb).symm
    have horb := hfull hdn
    have hp : (∑ k ∈ Finset.range d,
        flagS perm m n ((nextS perm m n)^[k] (Strand.Transverse 0))) % 2 =
        orbitParity perm m n (Strand.Transverse 0) := by
      rw [orbitParity, sum_flags_orbit perm hv m n hm hn hT0 hd hdN hfix hmin]
    have hparconst : ∀ t ∈ strandSpace perm.permutation.length m n,
        orbitParity perm m n t = orbitParity perm m n (Strand.Transverse 0) := by
      intro t ht
      apply orbitParity_eq_of_mem perm hv m n hm hn hT0
      rw [horb]
      exact ht
    have hEO1 : evenOrbits perm m n (strandSpace perm.permutation.length m n) +
        oddOrbits perm m n (strandSpace perm.permutation.length m n) = 1 := by
      rw [hEO]
      exact hiff.mp hdn
    have hp2 : orbitParity perm m n (Strand.Transverse 0) = 0 ∨
        orbitParity perm m n (Strand.Transverse 0) = 1 := by
      have : orbitParity perm m n (Strand.Transverse 0) < 2 :=
        Nat.mod_lt _ (by omega)
      omega
    rcases hp2 with hp0 | hp1
    · left
      have hO : oddOrbits perm m n (strandSpace perm.permutation.length m n) = 0 := by
        rw [oddOrbits]
        have hfe : (strandSpace perm.permutation.length m n).filter
            (fun s => ¬ orbitParity perm m n s = 0) = ∅ := by
          rw [Finset.filter_eq_empty_iff]
          intro t ht hcon
          exact hcon (by rw [hparconst t ht, hp0])
        rw [hfe, Finset.image_empty, Finset.card_empty]
      refine ⟨by rw [hp, hp0], by omega, hO⟩
    · right
      have hE : evenOrbits perm m n (strandSpace perm.permutation.length m n) = 0 := by
        rw [evenOrbits]
        have hfe : (strandSpace perm.permutation.length m n).filter
            (fun s => orbitParity perm m n s = 0) = ∅ := by
          rw [Finset.filter_eq_empty_iff]
          intro t ht hcon
          rw [hparconst t ht, hp1] at hcon
          omega
        rw [hfe, Finset.image_empty, Finset.card_empty]
      refine ⟨by rw [hp, hp1], hE, by omega⟩

/-- Claim C5 witness: the theorem applied to a concrete valid permutation. -/
theorem has_one_component_consistent_witness :
    ∃ b p t o, has_one_component ⟨[1, 0], {1}⟩ 2 1 = some (b, p) ∧
      count_components_with_orientability ⟨[1, 0], {1}⟩ 2 1 = some (t, o) ∧
      (b = true ↔ t + o = 1) ∧
      (b = true → (p = 0 ∧ t = 1 ∧ o = 0) ∨ (p = 1 ∧ t = 0 ∧ o = 1)) :=
  has_one_component_consistent ⟨[1, 0], {1}⟩ (by decide) 2 1 (by decide) (by decide)

/-- Claim C7: the totals of the full orbit decomposition do not depend on the
origin-selection function or visitation order: for any selection `pick` of an
element of the remaining working set, the generalized decomposition loop
returns exactly `count_components_with_orientability`'s result; moreover each
orbit's accumulated flip parity is the same whichever of its strands the walk
starts from (the orbit parity is an invariant of the orbit, and the inner walk
started at any strand accumulates exactly that parity). -/
theorem decomposition_order_independent (perm : SignedPermutation)
    (hv : perm.Valid) (m n : Nat) (hm : 1 ≤ m) (hn : 1 ≤ n)
    (pick : Finset Strand → Strand)
    (hpick : ∀ S : Finset Strand, S.Nonempty → pick S ∈ S) :
    count_loop_pick perm m n pick (m * perm.permutation.length + n + 1)
        (strandSpace perm.permutation.length m n) 0 0 =
      count_components_with_orientability perm m n ∧
    (∀ s ∈ strandSpace perm.permutation.length m n,
      ∀ t ∈ orbitF perm m n s,
        orbitParity perm m n t = orbitParity perm m n s) ∧
    (∀ s ∈ strandSpace perm.permutation.length m n, ∃ R P,
      walk_loop perm m n s (m * perm.permutation.length + n) (nextS perm m n s)
          ((strandSpace perm.permutation.length m n).erase s)
          (flagS perm m n s) =
        some (R, P) ∧ P % 2 = orbitParity perm m n s) := by
  refine ⟨?_, ?_, ?_⟩
  · rw [count_loop_pick_eq perm hv m n hm hn pick hpick
      (m * perm.permutation.length + n + 1)
      (strandSpace perm.permutation.length m n) 0 0
      (Finset.Subset.refl _) (fun s hs => nextS_mem perm hv m n hm hn hs)
      (by rw [card_strandSpace]; omega),
      count_components_eq perm hv m n hm hn]
    simp
  · intro s hs t ht
    exact orbitParity_eq_of_mem perm hv m n hm hn hs ht
  · intro s hs
    obtain ⟨P, hwalk, hP2, _, _, _, _⟩ :=
      orbit_step perm hv m n hm hn (Finset.Subset.refl _)
        (fun x hx => nextS_mem perm hv m n hm hn hx) hs
    exact ⟨_, P, hwalk, hP2⟩

/-- Claim C7 witness: the theorem applied with the minimum-element selection
on a concrete valid permutation. -/
theorem decomposition_order_independent_witness :
    count_loop_pick ⟨[1, 0], {1}⟩ 2 1 minPick
        (2 * (SignedPermutation.mk [1, 0] {1}).permutation.length + 1 + 1)
        (strandSpace (SignedPermutation.mk [1, 0] {1}).permutation.length 2 1) 0 0 =
      count_components_with_orientability ⟨[1, 0], {1}⟩ 2 1 ∧
    (∀ s ∈ strandSpace (SignedPermutation.mk [1, 0] {1}).permutation.length 2 1,
      ∀ t ∈ orbitF ⟨[1, 0], {1}⟩ 2 1 s,
        orbitParity ⟨[1, 0], {1}⟩ 2 1 t = orbitParity ⟨[1, 0], {1}⟩ 2 1 s) ∧
    (∀ s ∈ strandSpace (SignedPermutation.mk [1, 0] {1}).permutation.length 2 1,
      ∃ R P, walk_loop ⟨[1, 0], {1}⟩ 2 1 s
          (2 * (SignedPermutation.mk [1, 0] {1}).permutation.length + 1)
          (nextS ⟨[1, 0], {1}⟩ 2 1 s)
          ((strandSpace (SignedPermutation.mk [1, 0] {1}).permutation.length 2 1).erase s)
          (flagS ⟨[1, 0], {1}⟩ 2 1 s) =
        some (R, P) ∧ P % 2 = orbitParity ⟨[1, 0], {1}⟩ 2 1 s) :=
  decomposition_order_independent ⟨[1, 0], {1}⟩ (by decide) 2 1 (by decide)
    (by decide) minPick
    (fun S hS => by rw [minPick, dif_pos hS]; exact S.min'_mem hS)

theorem enum_pairs_mem (C : Nat) (kn : Nat × Nat) :
    kn ∈ enum_pairs C ↔ 2 ≤ kn.1 ∧ kn.1 < C ∧ 1 ≤ kn.2 ∧ kn.2 < kn.1 ∧
      Nat.gcd kn.1 kn.2 = 1 := by
  obtain ⟨k, n⟩ := kn
  simp only [enum_pairs, List.mem_flatMap, List.mem_map, List.mem_filter,
    List.mem_range'_1, decide_eq_true_eq, Prod.mk.injEq]
  constructor
  · rintro ⟨k', ⟨hk1, hk2⟩, n', ⟨⟨hn1, hn2⟩, hg⟩, rfl, rfl⟩
    refine ⟨by omega, by omega, by omega, by omega, hg⟩
  · rintro ⟨h2k, hkC, h1n, hnk, hg⟩
    exact ⟨k, ⟨by omega, by omega⟩, n, ⟨⟨by omega, by omega⟩, hg⟩, rfl, rfl⟩

theorem enum_pairs_nodup (C : Nat) : (enum_pairs C).Nodup := by
  rw [enum_pairs, List.nodup_flatMap]
  constructor
  · intro k hk
    apply (List.nodup_map_iff_inj_on ?_).mpr
    · intro a _ b _ hab
      simpa using hab
    · exact List.Nodup.filter _ (List.nodup_range' 1 (k - 1))
  · apply List.Pairwise.imp ?_ (List.nodup_range' 2 (C - 2))
    intro a b hab
    intro x hxa hxb
    rw [List.mem_map] at hxa hxb
    obtain ⟨na, _, rfl⟩ := hxa
    obtain ⟨nb, _, heq⟩ := hxb
    exact hab (congrArg Prod.fst heq).symm

theorem enum_loop_spec (perm : SignedPermutation) :
    ∀ l : List (Nat × Nat),
      (∀ kn ∈ l, ∃ r, count_components_with_orientability perm
        (kn.1 - kn.2) kn.2 = some r) →
      ∃ out, enum_loop perm l = some out ∧
        (∀ e, e ∈ out ↔ ∃ kn ∈ l, e.1 = (kn.1 - kn.2, kn.2) ∧
          count_components_with_orientability perm (kn.1 - kn.2) kn.2 = some e.2) ∧
        out.map Prod.fst = l.map fun kn => (kn.1 - kn.2, kn.2) := by
  intro l
  induction l with
  | nil => intro _; exact ⟨[], rfl, by simp, by simp⟩
  | cons kn rest ih =>
    intro hall
    obtain ⟨r, hr⟩ := hall kn (List.mem_cons_self kn rest)
    obtain ⟨out, hout, hmem, hmap⟩ :=
      ih fun x hx => hall x (List.mem_cons_of_mem _ hx)
    refine ⟨((kn.1 - kn.2, kn.2), r) :: out, ?_, ?_, ?_⟩
    · simp only [enum_loop, enum_task, hr, hout]
    · intro e
      simp only [List.mem_cons]
      constructor
      · rintro (rfl | he)
        · exact ⟨kn, Or.inl rfl, rfl, hr⟩
        · obtain ⟨kn', h1, h2, h3⟩ := (hmem e).mp he
          exact ⟨kn', Or.inr h1, h2, h3⟩
      · rintro ⟨kn', hkn', h2, h3⟩
        rcases hkn' with rfl | hkn'
        · left
          have he2 : e.2 = r := by
            rw [hr] at h3
            exact (Option.some_inj.mp h3).symm
          calc e = (e.1, e.2) := rfl
            _ = ((kn'.1 - kn'.2, kn'.2), r) := by rw [h2, he2]
        · right
          exact (hmem e).mpr ⟨kn', hkn', h2, h3⟩
    · simp [hmap]

/-- Claim C6: `count_components_upto_complexity perm C` succeeds and returns,
as an unordered collection, exactly one entry `((m, n), r)` for each pair with
`m ≥ 1`, `n ≥ 1`, `m + n < C` and `gcd (m + n) n = 1`, where `r` is the result
of direct invocation of `count_components_with_orientability perm m n`; there
are no other entries and no duplicated `(m, n)` keys. -/
theorem count_upto_complexity_spec (perm : SignedPermutation) (hv : perm.Valid)
    (C : Nat) :
    ∃ out, count_components_upto_complexity perm C = some out ∧
      (∀ mm nn r, ((mm, nn), r) ∈ out ↔
        (1 ≤ mm ∧ 1 ≤ nn ∧ mm + nn < C ∧ Nat.gcd (mm + nn) nn = 1 ∧
          count_components_with_orientability perm mm nn = some r)) ∧
      (out.map Prod.fst).Nodup := by
  have hall : ∀ kn ∈ enum_pairs C, ∃ r,
      count_components_with_orientability perm (kn.1 - kn.2) kn.2 = some r := by
    intro kn hkn
    rw [enum_pairs_mem] at hkn
    exact ⟨_, count_components_eq perm hv (kn.1 - kn.2) kn.2
      (by omega) (by omega)⟩
  obtain ⟨out, hout, hmem, hmap⟩ := enum_loop_spec perm (enum_pairs C) hall
  refine ⟨out, hout, ?_, ?_⟩
  · intro mm nn r
    rw [hmem ((mm, nn), r)]
    constructor
    · rintro ⟨kn, hkn, h1, h2⟩
      rw [enum_pairs_mem] at hkn
      have hmm : mm = kn.1 - kn.2 := congrArg Prod.fst h1
      have hnn : nn = kn.2 := congrArg Prod.snd h1
      have hsum : mm + nn = kn.1 := by omega
      refine ⟨by omega, by omega, by omega, ?_, ?_⟩
      · rw [hsum, hnn]
        exact hkn.2.2.2.2
      · rw [hmm, hnn]
        exact h2
    · rintro ⟨h1, h2, h3, h4, h5⟩
      refine ⟨(mm + nn, nn), ?_, ?_, ?_⟩
      · rw [enum_pairs_mem]
        refine ⟨by omega, by omega, by omega, by omega, h4⟩
      · have : mm + nn - nn = mm := by omega
        rw [this]
      · have : mm + nn - nn = mm := by omega
        rw [this]
        exact h5
  · rw [hmap]
    apply (List.nodup_map_iff_inj_on (enum_pairs_nodup C)).mpr
    intro a ha b hb hab
    rw [enum_pairs_mem] at ha hb
    rw [Prod.mk.injEq] at hab
    obtain ⟨h1, h2⟩ := hab
    have : a.1 = b.1 := by omega
    calc a = (a.1, a.2) := rfl
      _ = (b.1, b.2) := by rw [h2, this]
      _ = b := rfl

/-- Claim C6 witness: the theorem applied to a concrete valid permutation. -/
theorem count_upto_complexity_spec_witness :
    ∃ out, count_components_upto_complexity ⟨[0, 1], ∅⟩ 4 = some out ∧
      (∀ mm nn r, ((mm, nn), r) ∈ out ↔
        (1 ≤ mm ∧ 1 ≤ nn ∧ mm + nn < 4 ∧ Nat.gcd (mm + nn) nn = 1 ∧
          count_components_with_orientability ⟨[0, 1], ∅⟩ mm nn = some r)) ∧
      (out.map Prod.fst).Nodup :=
  count_upto_complexity_spec ⟨[0, 1], ∅⟩ (by decide) 4

theorem getD_set_ne (l : List Nat) {i j : Nat} (a d : Nat) (h : i ≠ j) :
    (l.set i a).getD j d = l.getD j d := by
  simp [List.getD]
  rw [List.getElem?_set_ne h]

theorem getD_set_self (l : List Nat) {i : Nat} (a d : Nat) (h : i < l.length) :
    (l.set i a).getD i d = a := by
  simp [List.getD, List.getElem?_set_self', h]

theorem newLoop_error_IP (length : Nat) :
    ∀ (pairs : List (Nat × Nat)) (acc : List Nat) (e : PermutationError),
      newLoop length pairs acc = .error e → e = .InvalidPermutation := by
  intro pairs
  induction pairs with
  | nil => intro acc e h; simp [newLoop] at h
  | cons q rest ih =>
    intro acc e h
    rw [newLoop] at h
    by_cases h1 : length ≤ q.2
    · rw [if_pos h1] at h
      injection h with h2
      exact h2.symm
    · rw [if_neg h1] at h
      by_cases h2 : acc.getD q.2 0 ≠ length
      · rw [if_pos h2] at h
        injection h with h3
        exact h3.symm
      · rw [if_neg h2] at h
        exact ih _ e h

theorem newLoop_ok_iff (length : Nat) :
    ∀ (pairs : List (Nat × Nat)) (acc : List Nat), acc.length = length →
      (∀ q ∈ pairs, q.1 < length) →
      ((∃ pv, newLoop length pairs acc = .ok pv) ↔
        ((∀ q ∈ pairs, q.2 < length) ∧ (pairs.map Prod.snd).Nodup ∧
          ∀ q ∈ pairs, acc.getD q.2 0 = length)) := by
  intro pairs
  induction pairs with
  | nil => intro acc hacc hidx; simp [newLoop]
  | cons q rest ih =>
    intro acc hacc hidx
    by_cases h1 : length ≤ q.2
    · simp only [newLoop, if_pos h1]
      constructor
      · rintro ⟨pv, hpv⟩
        simp at hpv
      · rintro ⟨hval, _, _⟩
        have := hval q (List.mem_cons_self q rest)
        omega
    · by_cases h2 : acc.getD q.2 0 ≠ length
      · simp only [newLoop, if_neg h1, if_pos h2]
        constructor
        · rintro ⟨pv, hpv⟩
          simp at hpv
        · rintro ⟨hval, hnd, hacc0⟩
          exact absurd (hacc0 q (List.mem_cons_self q rest)) h2
      · simp only [newLoop, if_neg h1, if_neg h2]
        push_neg at h2
        have hq1 : q.1 < length := hidx q (List.mem_cons_self q rest)
        have hlen2 : (acc.set q.2 q.1).length = length := by simp [hacc]
        have hidx2 : ∀ p ∈ rest, p.1 < length := fun p hp =>
          hidx p (List.mem_cons_of_mem _ hp)
        rw [ih (acc.set q.2 q.1) hlen2 hidx2]
        have hq2 : q.2 < acc.length := by omega
        constructor
        · rintro ⟨hval, hnd, hset⟩
          refine ⟨?_, ?_, ?_⟩
          · intro p hp
            rcases List.mem_cons.mp hp with rfl | hp
            · omega
            · exact hval p hp
          · rw [List.map_cons, List.nodup_cons]
            refine ⟨?_, hnd⟩
            intro hmem
            rw [List.mem_map] at hmem
            obtain ⟨p, hp, hpq⟩ := hmem
            have hthis := hset p hp
            rw [hpq, getD_set_self acc q.1 0 hq2] at hthis
            omega
          · intro p hp
            rcases List.mem_cons.mp hp with rfl | hp
            · exact h2
            · have hthis := hset p hp
              by_cases hpq : p.2 = q.2
              · rw [hpq, getD_set_self acc q.1 0 hq2] at hthis
                omega
              · rw [getD_set_ne acc q.1 0 (fun hc => hpq hc.symm)] at hthis
                exact hthis
        · rintro ⟨hval, hnd, hacc0⟩
          rw [List.map_cons, List.nodup_cons] at hnd
          obtain ⟨hq2nr, hnd⟩ := hnd
          refine ⟨fun p hp => hval p (List.mem_cons_of_mem _ hp), hnd, ?_⟩
          intro p hp
          have hpq : q.2 ≠ p.2 := by
            intro hc
            exact hq2nr (by rw [List.mem_map]; exact ⟨p, hp, hc.symm⟩)
          rw [getD_set_ne acc q.1 0 hpq]
          exact hacc0 p (List.mem_cons_of_mem _ hp)

theorem newLoop_length (length : Nat) :
    ∀ (pairs : List (Nat × Nat)) (acc pv : List Nat),
      newLoop length pairs acc = .ok pv → pv.length = acc.length := by
  intro pairs
  induction pairs with
  | nil =>
    intro acc pv h
    simp only [newLoop] at h
    injection h with h2
    rw [h2]
  | cons q rest ih =>
    intro acc pv h
    rw [newLoop] at h
    by_cases h1 : length ≤ q.2
    · rw [if_pos h1] at h; simp at h
    · rw [if_neg h1] at h
      by_cases h2 : acc.getD q.2 0 ≠ length
      · rw [if_pos h2] at h; simp at h
      · rw [if_neg h2] at h
        have := ih _ _ h
        simpa using this

theorem newLoop_preserve (length : Nat) :
    ∀ (pairs : List (Nat × Nat)) (acc pv : List Nat) (w : Nat),
      newLoop length pairs acc = .ok pv → w ∉ pairs.map Prod.snd →
      pv.getD w 0 = acc.getD w 0 := by
  intro pairs
  induction pairs with
  | nil =>
    intro acc pv w h _
    simp only [newLoop] at h
    injection h with h2
    rw [h2]
  | cons q rest ih =>
    intro acc pv w h hw
    rw [List.map_cons] at hw
    have hw1 : w ≠ q.2 := fun hc => hw (by rw [hc]; exact List.mem_cons_self _ _)
    have hw2 : w ∉ rest.map Prod.snd := fun hc => hw (List.mem_cons_of_mem _ hc)
    rw [newLoop] at h
    by_cases h1 : length ≤ q.2
    · rw [if_pos h1] at h; simp at h
    · rw [if_neg h1] at h
      by_cases h2 : acc.getD q.2 0 ≠ length
      · rw [if_pos h2] at h; simp at h
      · rw [if_neg h2] at h
        rw [ih _ _ w h hw2, getD_set_ne acc q.1 0 (fun hc => hw1 hc.symm)]

theorem newLoop_writes (length : Nat) :
    ∀ (pairs : List (Nat × Nat)) (acc pv : List Nat),
      newLoop length pairs acc = .ok pv → (∀ q ∈ pairs, q.1 < length) →
      acc.length = length → ∀ q ∈ pairs, pv.getD q.2 0 = q.1 := by
  intro pairs
  induction pairs with
  | nil => intro acc pv _ _ _ q hq; cases hq
  | cons q rest ih =>
    intro acc pv h hidx hacc p hp
    rw [newLoop] at h
    by_cases h1 : length ≤ q.2
    · rw [if_pos h1] at h; simp at h
    · rw [if_neg h1] at h
      by_cases h2 : acc.getD q.2 0 ≠ length
      · rw [if_pos h2] at h; simp at h
      · rw [if_neg h2] at h
        push_neg at h2
        have hq2 : q.2 < acc.length := by omega
        have hlen2 : (acc.set q.2 q.1).length = length := by simp [hacc]
        have hidx2 : ∀ p ∈ rest, p.1 < length := fun p hp =>
          hidx p (List.mem_cons_of_mem _ hp)
        rcases List.mem_cons.mp hp with rfl | hp
        · have hnotin : p.2 ∉ rest.map Prod.snd := by
            intro hmem
            rw [List.mem_map] at hmem
            obtain ⟨p', hp', hpq⟩ := hmem
            have hok : ∃ pv', newLoop length rest (acc.set p.2 p.1) = .ok pv' :=
              ⟨pv, h⟩
            have := ((newLoop_ok_iff length rest _ hlen2 hidx2).mp hok).2.2 p' hp'
            rw [hpq, getD_set_self acc p.1 0 hq2] at this
            have := hidx p (List.mem_cons_self p rest)
            omega
          rw [newLoop_preserve length rest _ pv p.2 h hnotin,
            getD_set_self acc p.1 0 hq2]
        · exact ih _ _ h hidx2 hlen2 p hp

theorem flipLoop_error_IF (length : Nat) :
    ∀ (flips : List Nat) (acc : Finset Nat) (e : PermutationError),
      flipLoop length flips acc = .error e → e = .InvalidFlipset := by
  intro flips
  induction flips with
  | nil => intro acc e h; simp [flipLoop] at h
  | cons v rest ih =>
    intro acc e h
    rw [flipLoop] at h
    by_cases h1 : length ≤ v
    · rw [if_pos h1] at h
      injection h with h2
      exact h2.symm
    · rw [if_neg h1] at h
      exact ih _ e h

theorem flipLoop_ok_iff (length : Nat) :
    ∀ (flips : List Nat) (acc : Finset Nat),
      (∃ fs, flipLoop length flips acc = .ok fs) ↔ ∀ f ∈ flips, f < length := by
  intro flips
  induction flips with
  | nil => intro acc; simp [flipLoop]
  | cons v rest ih =>
    intro acc
    by_cases h1 : length ≤ v
    · simp only [flipLoop, if_pos h1]
      constructor
      · rintro ⟨fs, hfs⟩; simp at hfs
      · intro hall
        have := hall v (List.mem_cons_self v rest)
        omega
    · simp only [flipLoop, if_neg h1]
      rw [ih (insert v acc)]
      constructor
      · intro hall f hf
        rcases List.mem_cons.mp hf with rfl | hf
        · omega
        · exact hall f hf
      · intro hall f hf
        exact hall f (List.mem_cons_of_mem _ hf)

theorem flipLoop_mem (length : Nat) :
    ∀ (flips : List Nat) (acc fs : Finset Nat),
      flipLoop length flips acc = .ok fs →
      ∀ x, x ∈ fs ↔ x ∈ flips ∨ x ∈ acc := by
  intro flips
  induction flips with
  | nil =>
    intro acc fs h x
    simp only [flipLoop] at h
    injection h with h2
    rw [← h2]
    simp
  | cons v rest ih =>
    intro acc fs h x
    rw [flipLoop] at h
    by_cases h1 : length ≤ v
    · rw [if_pos h1] at h; simp at h
    · rw [if_neg h1] at h
      rw [ih _ _ h x, List.mem_cons, Finset.mem_insert]
      tauto

theorem replicate_getD (L v : Nat) (h : v < L) :
    (List.replicate L L).getD v 0 = L := by
  simp [List.getD, List.getElem?_replicate, h]

theorem new_ok_iff_bijection (p F : List Nat) :
    (∃ pv, newLoop p.length p.enum (List.replicate p.length p.length) = .ok pv) ↔
      ((∀ v ∈ p, v < p.length) ∧ p.Nodup) := by
  have hidx : ∀ q ∈ p.enum, q.1 < p.length := fun q hq =>
    List.fst_lt_of_mem_enum hq
  have hacc : (List.replicate p.length p.length).length = p.length := by simp
  have hsnd : p.enum.map Prod.snd = p := List.enum_map_snd p
  rw [newLoop_ok_iff p.length p.enum _ hacc hidx]
  constructor
  · rintro ⟨h1, h2, _⟩
    rw [hsnd] at h2
    refine ⟨?_, h2⟩
    intro v hv
    rw [← hsnd, List.mem_map] at hv
    obtain ⟨q, hq, rfl⟩ := hv
    exact h1 q hq
  · rintro ⟨h1, h2⟩
    have hq2 : ∀ q ∈ p.enum, q.2 < p.length := by
      intro q hq
      apply h1
      rw [← hsnd]
      exact List.mem_map_of_mem _ hq
    refine ⟨hq2, by rw [hsnd]; exact h2, ?_⟩
    intro q hq
    exact replicate_getD p.length q.2 (hq2 q hq)

/-- Claim C8: `SignedPermutation::new` fails with `InvalidPermutation` iff the
supplied sequence is not a bijection on `{0,…,L−1}` (an out-of-range or
duplicated value); when it is a bijection it fails with `InvalidFlipset` iff
some flip index is out of range; otherwise construction succeeds. -/
theorem new_validation_spec (p F : List Nat) :
    (SignedPermutation.new p F = .error .InvalidPermutation ↔
      ¬ ((∀ v ∈ p, v < p.length) ∧ p.Nodup)) ∧
    (((∀ v ∈ p, v < p.length) ∧ p.Nodup) →
      (SignedPermutation.new p F = .error .InvalidFlipset ↔
        ∃ f ∈ F, p.length ≤ f)) ∧
    ((((∀ v ∈ p, v < p.length) ∧ p.Nodup) ∧ (∀ f ∈ F, f < p.length)) →
      ∃ sp, SignedPermutation.new p F = .ok sp) := by
  refine ⟨?_, ?_, ?_⟩
  · constructor
    · intro hip hbij
      obtain ⟨pv, hpv⟩ := (new_ok_iff_bijection p F).mpr hbij
      rw [SignedPermutation.new, hpv] at hip
      cases hfl : flipLoop p.length F ∅ with
      | error e =>
        rw [hfl] at hip
        have he := flipLoop_error_IF p.length F ∅ e hfl
        subst he
        simp at hip
      | ok fs =>
        rw [hfl] at hip
        simp at hip
    · intro hnbij
      cases hnl : newLoop p.length p.enum (List.replicate p.length p.length) with
      | error e =>
        have he := newLoop_error_IP p.length p.enum _ e hnl
        subst he
        rw [SignedPermutation.new, hnl]
      | ok pv =>
        exact absurd ((new_ok_iff_bijection p F).mp ⟨pv, hnl⟩) hnbij
  · intro hbij
    obtain ⟨pv, hpv⟩ := (new_ok_iff_bijection p F).mpr hbij
    rw [SignedPermutation.new, hpv]
    constructor
    · intro hif
      by_contra hne
      push_neg at hne
      obtain ⟨fs, hfs⟩ := (flipLoop_ok_iff p.length F ∅).mpr
        (fun f hf => by have := hne f hf; omega)
      rw [hfs] at hif
      simp at hif
    · rintro ⟨f, hfF, hfL⟩
      cases hfl : flipLoop p.length F ∅ with
      | error e =>
        have he := flipLoop_error_IF p.length F ∅ e hfl
        subst he
        rfl
      | ok fs =>
        have := (flipLoop_ok_iff p.length F ∅).mp ⟨fs, hfl⟩ f hfF
        omega
  · rintro ⟨hbij, hflips⟩
    obtain ⟨pv, hpv⟩ := (new_ok_iff_bijection p F).mpr hbij
    obtain ⟨fs, hfs⟩ := (flipLoop_ok_iff p.length F ∅).mpr hflips
    exact ⟨⟨pv, fs⟩, by rw [SignedPermutation.new, hpv, hfs]⟩

/-- Claim C8 witness: the theorem applied at concrete inputs from the spec's
scenario 3 (`[0,0]` fails with `InvalidPermutation`; `[0,1]` with `flips=[5]`
fails with `InvalidFlipset`). -/
theorem new_validation_spec_witness :
    SignedPermutation.new [0, 0] [] = .error .InvalidPermutation ∧
    SignedPermutation.new [0, 1] [5] = .error .InvalidFlipset :=
  ⟨(new_validation_spec [0, 0] []).1.mpr (by decide),
    ((new_validation_spec [0, 1] [5]).2.1 (by decide)).mpr
      ⟨5, by decide, by decide⟩⟩

/-- Claim C3 counterexample: constructing from the sequence `[1, 2, 0]` and
evaluating at 0 yields `(2, 0)` — the preimage of 0 under the sequence (the
constructor stores the inverse) — not the image `p[0] = 1` the claim asserts. -/
theorem call_returns_image_cex :
    ∃ sp, SignedPermutation.new [1, 2, 0] [] = .ok sp ∧
      sp.call 0 = .ok (2, 0) ∧ ((2, 0) : Nat × Nat) ≠ ((1, 0) : Nat × Nat) :=
  ⟨⟨[2, 0, 1], ∅⟩, by decide, by decide, by decide⟩

/-- Claim C3 amended: for a `SignedPermutation` successfully constructed from
sequence `p` and flip list `F`, evaluating at `i < L` returns `(j, b)` where
`j` is the unique index with `p[j] = i` — the image of `i` under the INVERSE
of the supplied sequence, since the constructor stores the inverse vector —
and `b = 1` iff `i ∈ F`; for `i ≥ L` it fails with `InvalidPermutation`. -/
theorem call_evaluates_inverse (p F : List Nat) (sp : SignedPermutation)
    (h : SignedPermutation.new p F = .ok sp) (i : Nat) :
    (i < p.length → ∃ j, j < p.length ∧ p.getD j 0 = i ∧
      sp.call i = .ok (j, if i ∈ F then 1 else 0)) ∧
    (p.length ≤ i → sp.call i = .error .InvalidPermutation) := by
  cases hnl : newLoop p.length p.enum (List.replicate p.length p.length) with
  | error e =>
    rw [SignedPermutation.new, hnl] at h
    simp at h
  | ok pv =>
    cases hfl : flipLoop p.length F ∅ with
    | error e =>
      rw [SignedPermutation.new, hnl, hfl] at h
      simp at h
    | ok fs =>
      rw [SignedPermutation.new, hnl, hfl] at h
      injection h with h2
      subst h2
      obtain ⟨hval, hnd⟩ := (new_ok_iff_bijection p F).mp ⟨pv, hnl⟩
      have hpvlen : pv.length = p.length := by
        have := newLoop_length p.length p.enum _ pv hnl
        simpa using this
      have hidx : ∀ q ∈ p.enum, q.1 < p.length := fun q hq =>
        List.fst_lt_of_mem_enum hq
      have hwrites := newLoop_writes p.length p.enum _ pv hnl hidx (by simp)
      constructor
      · intro hi
        have hmemp : i ∈ p := by
          have hcardT : p.toFinset.card = p.length :=
            List.toFinset_card_of_nodup hnd
          have hsub : p.toFinset ⊆ Finset.range p.length := fun v hv =>
            Finset.mem_range.mpr (hval v (List.mem_toFinset.mp hv))
          have heqT : p.toFinset = Finset.range p.length :=
            Finset.eq_of_subset_of_card_le hsub
              (by rw [hcardT, Finset.card_range])
          have : i ∈ p.toFinset := by
            rw [heqT]
            exact Finset.mem_range.mpr hi
          exact List.mem_toFinset.mp this
        obtain ⟨j, hj, hpj⟩ := List.mem_iff_getElem.mp hmemp
        have henum : ((j, i) : Nat × Nat) ∈ p.enum := by
          rw [List.mem_enum_iff_getElem?]
          rw [show p[j]? = some p[j] from
            (List.getElem?_eq_some_getElem_iff p j hj).mpr trivial, hpj]
        have hwrite : pv.getD i 0 = j := hwrites (j, i) henum
        have hfsmem : ∀ x, x ∈ fs ↔ x ∈ F := by
          intro x
          rw [flipLoop_mem p.length F ∅ fs hfl x]
          simp
        refine ⟨j, hj, by rw [List.getD_eq_getElem p 0 hj, hpj], ?_⟩
        rw [SignedPermutation.call]
        rw [if_neg (by simp only []; omega)]
        by_cases hiF : i ∈ F
        · rw [if_pos (show i ∈ (SignedPermutation.mk pv fs).flip_set from
            (hfsmem i).mpr hiF), if_pos hiF]
          show Except.ok (pv.getD i 0, 1) = Except.ok (j, 1)
          rw [hwrite]
        · rw [if_neg (show i ∉ (SignedPermutation.mk pv fs).flip_set from
            fun hc => hiF ((hfsmem i).mp hc)), if_neg hiF]
          show Except.ok (pv.getD i 0, 0) = Except.ok (j, 0)
          rw [hwrite]
      · intro hi
        rw [SignedPermutation.call]
        rw [if_pos (by simp only []; omega)]

/-- Claim C3 amended witness: the theorem applied at a concrete input. -/
theorem call_evaluates_inverse_witness :
    (1 < ([1, 2, 0] : List Nat).length → ∃ j, j < ([1, 2, 0] : List Nat).length ∧
      ([1, 2, 0] : List Nat).getD j 0 = 1 ∧
      (SignedPermutation.mk [2, 0, 1] {0}).call 1 =
        .ok (j, if 1 ∈ ([0] : List Nat) then 1 else 0)) ∧
    (([1, 2, 0] : List Nat).length ≤ 1 →
      (SignedPermutation.mk [2, 0, 1] {0}).call 1 = .error .InvalidPermutation) :=
  call_evaluates_inverse [1, 2, 0] [0] ⟨[2, 0, 1], {0}⟩ (by decide) 1
